import Mathlib

/-!
Verification of the graph-normalization pipeline of `src/server/src/template.rs`
(`movie-games` server).

The Rust code operates on `MovieTemplate` values whose `nodes`, `endings` and
`characters` fields are `HashMap<String, _>`.  We embed those maps as
association lists (`SMap`), with lookup returning the first matching entry,
insertion replacing in place, and list order standing in for the (arbitrary)
iteration order of the Rust `HashMap`.  Fields of `MovieTemplate` that none of
the verified functions read or write (title, meta, provenance, ...) are
omitted from the embedding.

Rust string operations are embedded over `String.data` (`List Char`):
`rustTrim` models `str::trim` (Unicode white space restricted to
`Char.isWhitespace`), `toLowerStr` models `str::to_lowercase` on ASCII, and
`strLeB` models the lexicographic byte order used by `Vec<String>::sort`
(UTF-8 byte order agrees with code-point order).

All definitions are executable and structurally recursive, so concrete runs
reduce inside the kernel; the depth-first search of `sanitize_template_graph`
carries a fuel argument (`nodes.length + 1`), which is enough fuel because the
search only recurses into nodes still in state 0 and marks them before
recursing.
-/

/-- Association list standing in for Rust's `HashMap<String, α>`. -/
abbrev SMap (α : Type) := List (String × α)

def alookup {α : Type} : SMap α → String → Option α
  | [], _ => none
  | (k', v) :: rest, k => if k' = k then some v else alookup rest k

def ainsert {α : Type} : SMap α → String → α → SMap α
  | [], k, v => [(k, v)]
  | (k', v') :: rest, k, v =>
    if k' = k then (k, v) :: rest else (k', v') :: ainsert rest k v

def aremove {α : Type} : SMap α → String → SMap α
  | [], _ => []
  | (k', v') :: rest, k => if k' = k then rest else (k', v') :: aremove rest k

def acontains {α : Type} (l : SMap α) (k : String) : Bool :=
  (alookup l k).isSome

def akeys {α : Type} (l : SMap α) : List String :=
  l.map Prod.fst

/-- Model of Rust `str::trim`. -/
def rustTrim (s : String) : String :=
  ⟨((s.data.dropWhile Char.isWhitespace).reverse.dropWhile Char.isWhitespace).reverse⟩

/-- Byte-lexicographic `≤` on strings, as used by `Vec<String>::sort`. -/
def strLeB (a b : String) : Bool :=
  go a.data b.data
where
  go : List Char → List Char → Bool
    | [], _ => true
    | _ :: _, [] => false
    | c :: cs, d :: ds =>
      if c.toNat < d.toNat then true
      else if d.toNat < c.toNat then false
      else go cs ds

def sinsert (x : String) : List String → List String
  | [] => [x]
  | y :: ys => if strLeB x y then x :: y :: ys else y :: sinsert x ys

/-- Model of `keys.sort()` (insertion sort; the Rust keys are distinct, so any
stable comparison sort produces the same list). -/
def sortStrings : List String → List String
  | [] => []
  | x :: xs => sinsert x (sortStrings xs)

/-- Model of the "move the entry key to the front" step
(`template.rs:393-400` and `459-465`). -/
def promoteStart (keys : List String) : List String :=
  if keys.contains ("start") then "start" :: keys.erase ("start")
  else if keys.contains ("n_start") then "n_start" :: keys.erase ("n_start")
  else keys

/-- `pat` is a prefix of `l` (model of `str::starts_with` on char lists). -/
def leadsWith : List Char → List Char → Bool
  | [], _ => true
  | _ :: _, [] => false
  | c :: cs, d :: ds => c == d && leadsWith cs ds

/-- Model of `str::strip_prefix`. -/
def stripPrefixStr (s p : String) : Option String :=
  if leadsWith p.data s.data then some ⟨s.data.drop p.data.length⟩ else none

/-- Model of `str::contains` (substring search). -/
def containsSub (s pat : String) : Bool :=
  go s.data
where
  go : List Char → Bool
    | [] => pat.data.isEmpty
    | c :: rest => leadsWith pat.data (c :: rest) || go rest

/-- Model of `str::to_lowercase` (ASCII case only). -/
def toLowerStr (s : String) : String :=
  ⟨s.data.map Char.toLower⟩

def joinSep (sep : String) : List String → String
  | [] => ""
  | [x] => x
  | x :: y :: ys => x ++ sep ++ joinSep sep (y :: ys)

/-- Model of `i32::clamp`. -/
def intClamp (x lo hi : Int) : Int :=
  if x < lo then lo else if hi < x then hi else x

/-! ## Data model (`src/server/src/types.rs`) -/

structure AffinityEffect where
  character_id : String
  delta : Int
deriving DecidableEq

structure Choice where
  text : String
  next_node_id : String
  affinity_effect : Option AffinityEffect
deriving DecidableEq

structure StoryNode where
  id : String
  content : String
  ending_key : Option String
  level : Option Nat
  characters : Option (List String)
  choices : List Choice
deriving DecidableEq

structure Ending where
  type : String
  description : String
deriving DecidableEq

structure Character where
  id : String
  name : String
  gender : String
  age : Nat
  role : String
  background : String
  avatar_path : Option String
deriving DecidableEq

/-- The fields of `MovieTemplate` read or written by the pipeline stages. -/
structure MovieTemplate where
  nodes : SMap StoryNode
  endings : SMap Ending
  characters : SMap Character
deriving DecidableEq

/-! ## `normalize_character_ids` (`template.rs:195-214`) -/

/-- Re-keying of a single character (`template.rs:199-211`). -/
def charKeyStep (acc : SMap Character) (kc : String × Character) : SMap Character :=
  let key := if kc.2.name ≠ "" then kc.2.name
    else if kc.2.id ≠ "" then kc.2.id
    else kc.1
  ainsert acc key { kc.2 with id := key }

def normalize_character_ids (t : MovieTemplate) : MovieTemplate :=
  { t with characters := t.characters.foldl charKeyStep [] }

/-! ## `normalize_template_endings` (`template.rs:306-371`) -/

def canonicalize_key (k : String) : Option String :=
  let s := rustTrim k
  if s = "ending_good" ∨ s = "good_end" ∨ s = "end_good" ∨ s = "good" ∨ s = "GOOD" then
    some ("ending_good")
  else if s = "ending_neutral" ∨ s = "neutral_end" ∨ s = "end_neutral" ∨ s = "neutral" ∨ s = "NEUTRAL" then
    some ("ending_neutral")
  else if s = "ending_bad" ∨ s = "bad_end" ∨ s = "end_bad" ∨ s = "bad" ∨ s = "BAD" then
    some ("ending_bad")
  else none

/-- One alias move of `template.rs:331-339`. -/
def endingMoveStep (es : SMap Ending) (fr_to : String × String) : SMap Ending :=
  if acontains es fr_to.2 then aremove es fr_to.1
  else
    match alookup es fr_to.1 with
    | some v => ainsert (aremove es fr_to.1) fr_to.2 v
    | none => es

/-- Keeping one canonical ending (`template.rs:351-355`). -/
def endingPickStep (endings : SMap Ending) (keep : SMap Ending) (k : String) : SMap Ending :=
  match alookup endings k with
  | some v => ainsert keep k v
  | none => keep

/-- One step of the cap-to-5 fill loop (`template.rs:358-366`). -/
def endingKeepStep (keep : SMap Ending) (kv : String × Ending) : SMap Ending :=
  if 5 ≤ keep.length then keep
  else if acontains keep kv.1 then keep
  else ainsert keep kv.1 kv.2

def normalize_template_endings (t : MovieTemplate) : MovieTemplate :=
  if t.endings.isEmpty then t
  else
    let moved := t.endings.filterMap (fun ke =>
      match canonicalize_key ke.1 with
      | some canonical => if canonical ≠ ke.1 then some (ke.1, canonical) else none
      | none => none)
    let endings := moved.foldl endingMoveStep t.endings
    let nodes := t.nodes.map (fun kn =>
      (kn.1, { kn.2 with choices := kn.2.choices.map (fun c =>
        match canonicalize_key c.next_node_id with
        | some canonical => { c with next_node_id := canonical }
        | none => c) }))
    let endings :=
      if 5 < endings.length then
        let keep := ["ending_good", "ending_neutral", "ending_bad"].foldl
          (endingPickStep endings) []
        if keep.length < 5 then endings.foldl endingKeepStep keep
        else keep
      else endings
    { t with nodes := nodes, endings := endings }

/-- The per-choice rewrite of `template.rs:315-323`, as a named function
(definitionally equal to the lambda inlined in `normalize_template_endings`). -/
def canonChoice (c : Choice) : Choice :=
  match canonicalize_key c.next_node_id with
  | some canonical => { c with next_node_id := canonical }
  | none => c

/-- The per-node rewrite of `template.rs:313-325`, as a named function. -/
def canonNode (kn : String × StoryNode) : String × StoryNode :=
  (kn.1, { kn.2 with choices := kn.2.choices.map canonChoice })

/-! ## `normalize_template_nodes` (`template.rs:216-304`) -/

/-- The `while used.contains_key(&final_key)` loop of `template.rs:259-264`.
The candidates `new_key_2`, `new_key_3`, ... are pairwise distinct, so a fuel
of `used.length + 1` always finds a free candidate before running out. -/
def freshKeyFrom (used : SMap Nat) (new_key : String) : Nat → Nat → String
  | 0, i => new_key ++ "_" ++ toString i
  | fuel+1, i =>
    let cand := new_key ++ "_" ++ toString i
    if acontains used cand then freshKeyFrom used new_key fuel (i + 1) else cand

def freshKey (used : SMap Nat) (new_key : String) : String :=
  if acontains used new_key then freshKeyFrom used new_key (used.length + 1) 2 else new_key

def nodeNewKey (old_key : String) : String :=
  if old_key = "start" ∨ old_key = "n_start" then "start"
  else
    match stripPrefixStr old_key ("n_") with
    | some stripped => stripped
    | none =>
      match stripPrefixStr old_key ("node_") with
      | some stripped => stripped
      | none => old_key

/-- One step of the key-assignment loop (`template.rs:233-270`). -/
def keyAssignStep (mu : SMap String × SMap Nat) (old_key : String) : SMap String × SMap Nat :=
  let new_key := nodeNewKey old_key
  let final_key := freshKey mu.2 new_key
  let mapping := if final_key ≠ old_key then ainsert mu.1 old_key final_key else mu.1
  (mapping, ainsert mu.2 final_key 1)

def nodeKeyMapping (keys : List String) : SMap String × SMap Nat :=
  keys.foldl keyAssignStep ([], [])

/-- Rebuilding one node under the key mapping (`template.rs:284-301`). -/
def nodeRebuildStep (mapping : SMap String) (ns : SMap StoryNode) (kn : String × StoryNode) :
    SMap StoryNode :=
  let new_key := (alookup mapping kn.1).getD kn.1
  let node := if kn.2.id = "" ∨ kn.2.id = kn.1 then { kn.2 with id := new_key } else kn.2
  let node := { node with choices := node.choices.map (fun c =>
    match alookup mapping c.next_node_id with
    | some mapped => { c with next_node_id := mapped }
    | none => c) }
  ainsert ns new_key node

def normalize_template_nodes (t : MovieTemplate) : MovieTemplate :=
  if t.nodes.isEmpty then t
  else
    let keys := sortStrings (akeys t.nodes)
    let mapping := (nodeKeyMapping keys).1
    if mapping.isEmpty then
      { t with nodes := t.nodes.map (fun kn =>
          (kn.1, if kn.2.id = "" then { kn.2 with id := kn.1 } else kn.2)) }
    else
      { t with nodes := t.nodes.foldl (nodeRebuildStep mapping) [] }

/-! ## `sanitize_template_graph` (`template.rs:373-588`) -/

def ending_neutral_key (t : MovieTemplate) : String :=
  if acontains t.endings ("ending_neutral") then "ending_neutral"
  else if acontains t.endings ("ending_bad") then "ending_bad"
  else if acontains t.endings ("ending_good") then "ending_good"
  else "END"

/-- Signature used for duplicate collapse (`template.rs:412-419`). -/
def nodeSignature (node : StoryNode) : String :=
  let text := rustTrim node.content
  let cparts := sortStrings (node.choices.map (fun c =>
    rustTrim c.text ++ "→" ++ rustTrim c.next_node_id))
  text ++ "||" ++ joinSep ("|") cparts

/-- One step of the signature-owner/redirect loop (`template.rs:402-428`). -/
def dedupStep (t : MovieTemplate) (sr : SMap String × SMap String) (node_id : String) :
    SMap String × SMap String :=
  if node_id = "start" ∨ node_id = "n_start" then
    (ainsert sr.1 node_id "", sr.2)
  else
    match alookup t.nodes node_id with
    | none => sr
    | some node =>
      let signature := nodeSignature node
      match alookup sr.1 signature with
      | some owner =>
        if owner ≠ node_id then (sr.1, ainsert sr.2 node_id owner) else sr
      | none => (ainsert sr.1 signature node_id, sr.2)

/-- Transfer of the terminal marker from a redirected node to its owner
(`template.rs:439-449`). -/
def endingTransferStep (ns : SMap StoryNode) (fr_to : String × String) : SMap StoryNode :=
  match (alookup ns fr_to.1).bind (fun n => n.ending_key) with
  | some k =>
    match alookup ns fr_to.2 with
    | some to_node =>
      if to_node.ending_key = none then
        ainsert ns fr_to.2 { to_node with ending_key := some k }
      else ns
    | none => ns
  | none => ns

/-- Duplicate collapse: `template.rs:388-454`. -/
def sanitize_dedup (t : MovieTemplate) : MovieTemplate :=
  let keys := promoteStart (sortStrings (akeys t.nodes))
  let sr := keys.foldl (dedupStep t) ([], [])
  let redirect := sr.2
  if redirect.isEmpty then t
  else
    let nodes1 := t.nodes.map (fun kn =>
      (kn.1, { kn.2 with choices := kn.2.choices.map (fun c =>
        match alookup redirect c.next_node_id with
        | some tgt => { c with next_node_id := tgt }
        | none => c) }))
    let nodes2 := redirect.foldl endingTransferStep nodes1
    let nodes3 := redirect.foldl (fun ns fr_to => aremove ns fr_to.1) nodes2
    { t with nodes := nodes3 }

def stateOf (st : SMap Nat) (k : String) : Nat :=
  (alookup st k).getD 0

/-- In node `cur`, rewrite every choice whose target is `target` to `fb`
(the two `get_mut` rewrites inside `dfs`, `template.rs:483-489` and `499-505`). -/
def rewriteNodeChoices (t : MovieTemplate) (cur target fb : String) : MovieTemplate :=
  { t with nodes := t.nodes.map (fun kn =>
      if kn.1 = cur then
        (kn.1, { kn.2 with choices := kn.2.choices.map (fun c =>
          if c.next_node_id = target then { c with next_node_id := fb } else c) })
      else kn) }

/-- The recursive `dfs` of `template.rs:467-515`, with explicit fuel. -/
def sanitize_dfs : Nat → String → MovieTemplate → SMap Nat → String → MovieTemplate × SMap Nat
  | 0, _, t, st, _ => (t, st)
  | fuel+1, cur, t, st, fb =>
    let st1 := ainsert st cur 1
    let outgoing : List String := match alookup t.nodes cur with
      | some n => n.choices.map (fun c => c.next_node_id)
      | none => []
    let r := outgoing.foldl (fun (acc : MovieTemplate × SMap Nat) next =>
      if next = cur then
        (rewriteNodeChoices acc.1 cur cur fb, acc.2)
      else if acontains acc.1.nodes next then
        let next_state := stateOf acc.2 next
        if next_state = 1 then (rewriteNodeChoices acc.1 cur next fb, acc.2)
        else if next_state = 0 then sanitize_dfs fuel next acc.1 acc.2 fb
        else acc
      else acc) (t, st1)
    (r.1, ainsert r.2 cur 2)

/-- One root call of the driver loop (`template.rs:517-521`). -/
def dfsRootStep (enk : String) (acc : MovieTemplate × SMap Nat) (nid : String) :
    MovieTemplate × SMap Nat :=
  if stateOf acc.2 nid = 0 then
    sanitize_dfs (acc.1.nodes.length + 1) nid acc.1 acc.2 enk
  else acc

/-- Cycle elimination: the root loop of `template.rs:456-521`. -/
def sanitize_cycle_break (t : MovieTemplate) (enk : String) : MovieTemplate :=
  let node_ids := promoteStart (sortStrings (akeys t.nodes))
  (node_ids.foldl (dfsRootStep enk) (t, [])).1

/-- Reference repair: `template.rs:538-560`. -/
def sanitize_ref_repair (t : MovieTemplate) (node_keys ending_keys : List String)
    (ending_fallback : String) : MovieTemplate :=
  { t with nodes := t.nodes.map (fun kn =>
      (kn.1, { kn.2 with choices := kn.2.choices.map (fun c =>
        let tgt := rustTrim c.next_node_id
        if tgt = "" then { c with next_node_id := ending_fallback }
        else if tgt = "END" then c
        else if node_keys.contains tgt then c
        else if ending_keys.contains tgt then c
        else { c with next_node_id := ending_fallback }) })) }

/-- Terminal clearing: `template.rs:562-568`. -/
def sanitize_clear_terminal (t : MovieTemplate) (ending_keys : List String) : MovieTemplate :=
  { t with nodes := t.nodes.map (fun kn =>
      (kn.1,
        match kn.2.ending_key with
        | some ek => if ending_keys.contains ek then { kn.2 with choices := [] } else kn.2
        | none => kn.2)) }

/-- Terminal-marker filling: `template.rs:570-587`. -/
def sanitize_fill_marker (t : MovieTemplate) (ending_keys : List String) (enk : String) :
    MovieTemplate :=
  { t with nodes := t.nodes.map (fun kn =>
      (kn.1,
        if kn.2.choices.isEmpty then
          let valid := match kn.2.ending_key with
            | some k => ending_keys.contains k
            | none => false
          if valid then kn.2
          else if ending_keys.contains enk then { kn.2 with ending_key := some enk }
          else kn.2
        else kn.2)) }

def sanitize_template_graph (t : MovieTemplate) : MovieTemplate :=
  if t.nodes.isEmpty then t
  else
    let enk := ending_neutral_key t
    let t1 := sanitize_dedup t
    let t2 := sanitize_cycle_break t1 enk
    let ending_keys := akeys t2.endings
    let node_keys := akeys t2.nodes
    let ending_fallback :=
      if ending_keys.contains enk then enk
      else
        match t2.endings with
        | [] => "END"
        | e :: _ => e.1
    let t3 := sanitize_ref_repair t2 node_keys ending_keys ending_fallback
    let t4 := sanitize_clear_terminal t3 ending_keys
    sanitize_fill_marker t4 ending_keys enk

/-! ## `sanitize_affinity_effects` (`template.rs:590-650`) and
`pick_protagonist_name` (`template.rs:652-692`) -/

/-- Loop body of `pick_protagonist_name` (`template.rs:659-689`). -/
def pickStep (best : Option (Int × String)) (kc : String × Character) : Option (Int × String) :=
  let key := toLowerStr kc.1
  let name := rustTrim kc.2.name
  if name = "" then best
  else
    let role := toLowerStr kc.2.role
    let name_l := toLowerStr name
    let score : Int :=
      (if containsSub key ("player") ∨ containsSub key ("protagonist") ∨ containsSub key ("main") then 5 else 0)
      + (if containsSub role ("protagonist") ∨ containsSub role ("player") ∨ containsSub role ("main") then 6 else 0)
      + (if name = "我" ∨ containsSub name ("主角") then 7 else 0)
      + (if containsSub name_l ("protagonist") ∨ containsSub name_l ("player") then 4 else 0)
    match best with
    | some bs => if score ≤ bs.1 then best else some (score, name)
    | none => some (score, name)

def pick_protagonist_name (chars : SMap Character) : Option String :=
  if chars.isEmpty then none
  else (chars.foldl pickStep none).map Prod.snd

/-- One entry of the id-to-name map (`template.rs:596-602`). -/
def idNameStep (m : SMap String) (kc : String × Character) : SMap String :=
  let cid := rustTrim kc.2.id
  let name := rustTrim kc.2.name
  if cid ≠ "" ∧ name ≠ "" then ainsert m cid name else m

def build_id_to_name (chars : SMap Character) : SMap String :=
  chars.foldl idNameStep []

/-- The per-node allow list of `template.rs:607-620`. -/
def allowedNames (id_to_name : SMap String) (node : StoryNode) : List String :=
  (node.characters.getD []).filterMap (fun raw =>
    let v := rustTrim raw
    if v = "" then none else some ((alookup id_to_name v).getD v))

def sanitizeChoiceEffect (id_to_name : SMap String) (protagonist : Option String)
    (allowed : List String) (c : Choice) : Choice :=
  match c.affinity_effect with
  | none => c
  | some effect =>
    let effect := { effect with delta := intClamp effect.delta (-20) 20 }
    let raw := rustTrim effect.character_id
    if raw = "" then { c with affinity_effect := none }
    else
      let resolved := (alookup id_to_name raw).getD raw
      let effect := { effect with character_id := resolved }
      let dropProt : Bool := match protagonist with
        | some p => p == resolved
        | none => false
      if dropProt then { c with affinity_effect := none }
      else if allowed.contains resolved then { c with affinity_effect := some effect }
      else { c with affinity_effect := none }

def sanitize_affinity_effects (t : MovieTemplate) : MovieTemplate :=
  if t.nodes.isEmpty then t
  else
    let id_to_name := build_id_to_name t.characters
    let protagonist := pick_protagonist_name t.characters
    { t with nodes := t.nodes.map (fun kn =>
        let allowed := allowedNames id_to_name kn.2
        let newChoices := kn.2.choices.map (sanitizeChoiceEffect id_to_name protagonist allowed)
        (kn.1, { kn.2 with choices := newChoices })) }

/-! ## The handler pipeline (`handlers.rs:324-328`) -/

/-- The stage sequence actually applied by `import_template`. -/
def pipeline (t : MovieTemplate) : MovieTemplate :=
  sanitize_affinity_effects (normalize_template_nodes (sanitize_template_graph
    (normalize_template_endings (normalize_character_ids t))))

/-- The stage sequence with the Key Normalizer's node-key stage moved before
the Graph Sanitizer, as §2/§4.1 of the spec mandates. -/
def pipeline_spec_order (t : MovieTemplate) : MovieTemplate :=
  sanitize_affinity_effects (sanitize_template_graph (normalize_template_nodes
    (normalize_template_endings (normalize_character_ids t))))

/-- Choice-edge relation between node keys of a template. -/
def hasChoiceEdge (t : MovieTemplate) (u v : String) : Prop :=
  ∃ n, alookup t.nodes u = some n ∧ ∃ c ∈ n.choices, c.next_node_id = v

/-! ## Concrete graphs used by counterexamples and witnesses -/

def mkChoice (tx tgt : String) : Choice :=
  { text := tx, next_node_id := tgt, affinity_effect := none }

def mkNode (i cont : String) (cs : List Choice) : StoryNode :=
  { id := i, content := cont, ending_key := none, level := none, characters := none, choices := cs }

def someEnding (ty : String) : Ending :=
  { type := ty, description := "d" }

/-- A node key (`"ending_neutral"`) collides with an ending key: the cycle
breaker's fallback rewrite then *creates* a self-loop. -/
def c1Graph : MovieTemplate :=
  { nodes := [("a", mkNode ("a") ("A") [mkChoice ("go") ("ending_neutral")]),
              ("ending_neutral", mkNode ("ending_neutral") ("B") [mkChoice ("back") ("a")])],
    endings := [("ending_neutral", someEnding ("neutral"))], characters := [] }

/-- A small acyclic-able graph whose node keys avoid all ending keys. -/
def c1WitnessGraph : MovieTemplate :=
  { nodes := [("a", mkNode ("a") ("A") [mkChoice ("go") ("b")]),
              ("b", mkNode ("b") ("B") [mkChoice ("back") ("a")])],
    endings := [("ending_neutral", someEnding ("neutral"))], characters := [] }

/-- An untrimmed target `" 1 "` resolving to node `"1"` plus a literal `"END"`
target, with a non-empty endings map. -/
def c2Graph : MovieTemplate :=
  { nodes := [("start", mkNode ("start") ("s") [mkChoice ("go") (" 1 "), mkChoice ("fin") ("END")]),
              ("1", mkNode ("1") ("one") [mkChoice ("x") ("ending_good")])],
    endings := [("ending_good", someEnding ("good"))], characters := [] }

def c3WitnessGraph : MovieTemplate :=
  { nodes := [("start", { mkNode ("start") ("s") [mkChoice ("go") ("a")] with ending_key := some ("ending_neutral") }),
              ("a", mkNode ("a") ("A") [])],
    endings := [("ending_neutral", someEnding ("neutral"))], characters := [] }

/-- Two distinct nodes whose dangling targets are both repaired to the same
fallback, leaving them with identical signatures after sanitization. -/
def c4Graph : MovieTemplate :=
  { nodes := [("start", mkNode ("start") ("s") [mkChoice ("c1") ("a"), mkChoice ("c2") ("b")]),
              ("a", mkNode ("a") ("x") [mkChoice ("go") ("p")]),
              ("b", mkNode ("b") ("x") [mkChoice ("go") ("q")])],
    endings := [("ending_neutral", someEnding ("neutral"))], characters := [] }

def c4WitnessGraph : MovieTemplate :=
  { nodes := [("start", mkNode ("start") ("s") [mkChoice ("c1") ("a")]),
              ("a", mkNode ("a") ("xa") [mkChoice ("go") ("ending_neutral")]),
              ("b", mkNode ("b") ("xb") [mkChoice ("go") ("ending_neutral")])],
    endings := [("ending_neutral", someEnding ("neutral"))], characters := [] }

/-- Same shape as `c4Graph`: the first pipeline run leaves two
identical-signature nodes, the second run collapses them. -/
def c5Graph : MovieTemplate :=
  { nodes := [("start", mkNode ("start") ("s") [mkChoice ("c1") ("a"), mkChoice ("c2") ("b")]),
              ("a", mkNode ("a") ("x") [mkChoice ("go") ("p")]),
              ("b", mkNode ("b") ("x") [mkChoice ("go") ("q")])],
    endings := [("ending_neutral", someEnding ("neutral0"))], characters := [] }

def c5WitnessGraph : MovieTemplate :=
  { nodes := [], endings := [("good_end", someEnding ("good")), ("x", someEnding ("x"))],
    characters := [("p", { id := "p", name := "Alice", gender := "f", age := 20, role := "r",
                           background := "b", avatar_path := none })] }

/-- `"node_start"` is renamed to `"start"` by the node-key normalizer, and the
two orders of sanitize/normalize then disagree about duplicate collapse. -/
def c7Graph : MovieTemplate :=
  { nodes := [("node_start", mkNode ("") ("X") [mkChoice ("c") ("ending_good")]),
              ("z", mkNode ("z") ("X") [mkChoice ("c") ("ending_good")])],
    endings := [("ending_good", someEnding ("good"))], characters := [] }

def c7WitnessGraph : MovieTemplate :=
  { nodes := [("start", mkNode ("start") ("hello") [])],
    endings := [], characters := [] }

/-- A node whose `id` field (`"foo"`) differs from its map key (`"start"`). -/
def c8Graph : MovieTemplate :=
  { nodes := [("start", mkNode ("foo") ("x") [])], endings := [], characters := [] }

def c8WitnessGraph : MovieTemplate :=
  { nodes := [("n_1", mkNode ("n_1") ("x") [mkChoice ("c") ("n_2")]),
              ("n_2", mkNode ("") ("y") [])],
    endings := [], characters := [] }

/-- A non-entry node (`"a"`) with exactly the same signature as the entry
node `"start"`. -/
def c9Graph : MovieTemplate :=
  { nodes := [("start", mkNode ("start") ("X") [mkChoice ("c") ("ending_good")]),
              ("a", mkNode ("a") ("X") [mkChoice ("c") ("ending_good")])],
    endings := [("ending_good", someEnding ("good"))], characters := [] }

def c6Choice : Choice :=
  { text := "t", next_node_id := "ending_good",
    affinity_effect := some { character_id := "bob", delta := 35 } }

def c6StartNode : StoryNode :=
  { mkNode ("start") ("s") [c6Choice] with characters := some ["bob", "alice"] }

def aliceChar : Character :=
  { id := "alice", name := "alice", gender := "f", age := 20, role := "protagonist",
    background := "b", avatar_path := none }

def bobChar : Character :=
  { id := "bob", name := "bob", gender := "m", age := 30, role := "friend",
    background := "b", avatar_path := none }

def c6WitnessGraph : MovieTemplate :=
  { nodes := [("start", c6StartNode)],
    endings := [("ending_good", someEnding ("good"))],
    characters := [("alice", aliceChar), ("bob", bobChar)] }

def c10Choice : Choice :=
  { text := "t", next_node_id := "ending_good",
    affinity_effect := some { character_id := "carol", delta := 3 } }

def c10StartNode : StoryNode :=
  { mkNode ("start") ("s") [c10Choice] with characters := some ["carol"] }

def carolChar : Character :=
  { id := "carol", name := "carol", gender := "f", age := 20, role := "friend",
    background := "b", avatar_path := none }

def c10WitnessGraph : MovieTemplate :=
  { nodes := [("start", c10StartNode)],
    endings := [("ending_good", someEnding ("good"))],
    characters := [("carol", carolChar)] }

/-! ## Decidable checkers used to state counterexamples -/

/-- Bool rendering of claim C2: every target is a node key, an ending key or
the literal sentinel, and the sentinel occurs only when `endings` is empty. -/
def claimC2holds (t : MovieTemplate) : Bool :=
  t.nodes.all (fun kn => kn.2.choices.all (fun c =>
    ((akeys t.nodes).contains c.next_node_id
      || (akeys t.endings).contains c.next_node_id
      || c.next_node_id == "END")
    && (c.next_node_id != "END" || t.endings.isEmpty)))

/-- Bool rendering of claim C8: every node's `id` equals its map key. -/
def allNodeIdsMatchKeys (t : MovieTemplate) : Bool :=
  t.nodes.all (fun kn => kn.2.id == kn.1)

/-- Node `k` has a choice pointing back at `k`. -/
def selfLoopAt (t : MovieTemplate) (k : String) : Bool :=
  match alookup t.nodes k with
  | some n => n.choices.any (fun c => c.next_node_id == k)
  | none => false

/-- Number of node keys still unvisited (state 0) — the fuel measure of the
depth-first search. -/
def whiteCount (t : MovieTemplate) (st : SMap Nat) : Nat :=
  (akeys t.nodes).countP (fun k => stateOf st k == 0)

/-- Invariant of the cycle-breaking depth-first search: `done` lists the
fully-explored (state-2) node keys in finish order; states never exceed 2; and
every choice edge out of a finished node whose target is still a node key leads
to a strictly earlier-finished node. -/
def dfsInv (t : MovieTemplate) (st : SMap Nat) (done : List String) : Prop :=
  (∀ k, stateOf st k = 2 ↔ k ∈ done) ∧
  done.Nodup ∧
  (∀ k, stateOf st k ≤ 2) ∧
  (∀ u ∈ done, ∀ n, alookup t.nodes u = some n → ∀ c ∈ n.choices,
    c.next_node_id ∈ akeys t.nodes →
    c.next_node_id ∈ done ∧ done.indexOf c.next_node_id < done.indexOf u)

/-- Full functional specification of one `sanitize_dfs` call at a given fuel:
starting from a white root inside the invariant, it blackens the root (and
possibly more nodes), touches only white nodes' choice lists, preserves the
gray set and the key set, and re-establishes the invariant. -/
def dfsSpec (fuel : Nat) : Prop :=
  ∀ (fb cur : String) (t : MovieTemplate) (st : SMap Nat) (done : List String),
    dfsInv t st done → whiteCount t st < fuel → stateOf st cur = 0 →
    cur ∈ akeys t.nodes → fb ∉ akeys t.nodes →
    ∃ done' : List String,
      dfsInv (sanitize_dfs fuel cur t st fb).1 (sanitize_dfs fuel cur t st fb).2
        (done ++ done') ∧
      cur ∈ done' ∧
      akeys (sanitize_dfs fuel cur t st fb).1.nodes = akeys t.nodes ∧
      (∀ k, stateOf st k ≠ 0 →
        alookup (sanitize_dfs fuel cur t st fb).1.nodes k = alookup t.nodes k) ∧
      (∀ k, stateOf (sanitize_dfs fuel cur t st fb).2 k = 1 ↔ stateOf st k = 1) ∧
      (∀ k, stateOf (sanitize_dfs fuel cur t st fb).2 k = 0 → stateOf st k = 0)

/-- A graph satisfies `edgeOrder done` when every node key occurs in `done`
and every choice edge between node keys strictly decreases the `done` index:
the witness order proving the choice relation acyclic. -/
def edgeOrder (t : MovieTemplate) (done : List String) : Prop :=
  (∀ k ∈ akeys t.nodes, k ∈ done) ∧
  (∀ u ∈ done, ∀ n, alookup t.nodes u = some n → ∀ c ∈ n.choices,
    c.next_node_id ∈ akeys t.nodes →
    c.next_node_id ∈ done ∧ done.indexOf c.next_node_id < done.indexOf u)

/-! # Toolkit lemmas -/

theorem akeys_nil {α : Type} : akeys ([] : SMap α) = [] := rfl

theorem akeys_cons {α : Type} (kv : String × α) (l : SMap α) :
    akeys (kv :: l) = kv.1 :: akeys l := rfl

theorem alookup_isSome_iff {α : Type} (l : SMap α) (k : String) :
    (alookup l k).isSome ↔ k ∈ akeys l := by
  induction l with
  | nil => simp [alookup, akeys]
  | cons kv rest ih =>
    by_cases h : kv.1 = k
    · subst h
      simp [alookup, akeys]
    · rw [akeys_cons, List.mem_cons]
      cases kv with
      | mk k0 v0 =>
        simp only at h
        rw [alookup, if_neg h, ih]
        constructor
        · exact Or.inr
        · rintro (h' | h')
          · exact absurd h'.symm h
          · exact h'

theorem acontains_iff {α : Type} (l : SMap α) (k : String) :
    acontains l k = true ↔ k ∈ akeys l := by
  rw [acontains, alookup_isSome_iff]

theorem alookup_eq_none_iff {α : Type} (l : SMap α) (k : String) :
    alookup l k = none ↔ k ∉ akeys l := by
  rw [← alookup_isSome_iff, Option.isSome_iff_ne_none]
  tauto

theorem mem_akeys_of_lookup {α : Type} {l : SMap α} {k : String} {v : α}
    (h : alookup l k = some v) : k ∈ akeys l := by
  rw [← alookup_isSome_iff, h]
  rfl

theorem alookup_ainsert_self {α : Type} (l : SMap α) (k : String) (v : α) :
    alookup (ainsert l k v) k = some v := by
  induction l with
  | nil => simp [ainsert, alookup]
  | cons kv rest ih =>
    cases kv with
    | mk k0 v0 =>
      by_cases h : k0 = k
      · simp [ainsert, alookup, h]
      · simp [ainsert, alookup, h, ih]

theorem alookup_ainsert_ne {α : Type} (l : SMap α) {k k' : String} (v : α) (h : k ≠ k') :
    alookup (ainsert l k v) k' = alookup l k' := by
  induction l with
  | nil => simp [ainsert, alookup, h]
  | cons kv rest ih =>
    cases kv with
    | mk k0 v0 =>
      by_cases h0 : k0 = k
      · subst h0
        simp [ainsert, alookup, h]
      · simp [ainsert, alookup, h0, ih]

theorem mem_akeys_ainsert {α : Type} (l : SMap α) (k x : String) (v : α) :
    x ∈ akeys (ainsert l k v) ↔ x = k ∨ x ∈ akeys l := by
  induction l with
  | nil => simp [ainsert, akeys]
  | cons kv rest ih =>
    cases kv with
    | mk k0 v0 =>
      by_cases h0 : k0 = k
      · rw [ainsert, if_pos h0, akeys_cons, akeys_cons, List.mem_cons, List.mem_cons]
        subst h0
        tauto
      · rw [ainsert, if_neg h0, akeys_cons, akeys_cons, List.mem_cons, List.mem_cons, ih]
        tauto

theorem alookup_aremove_ne {α : Type} (l : SMap α) {k k' : String} (h : k ≠ k') :
    alookup (aremove l k) k' = alookup l k' := by
  induction l with
  | nil => simp [aremove]
  | cons kv rest ih =>
    cases kv with
    | mk k0 v0 =>
      by_cases h0 : k0 = k
      · subst h0
        simp [aremove, alookup, h]
      · simp [aremove, alookup, h0, ih]

theorem mem_akeys_aremove {α : Type} (l : SMap α) (k x : String) :
    x ∈ akeys (aremove l k) → x ∈ akeys l := by
  induction l with
  | nil => simp [aremove]
  | cons kv rest ih =>
    cases kv with
    | mk k0 v0 =>
      by_cases h0 : k0 = k
      · rw [aremove, if_pos h0, akeys_cons, List.mem_cons]
        tauto
      · rw [aremove, if_neg h0, akeys_cons, akeys_cons, List.mem_cons, List.mem_cons]
        rintro (h' | h')
        · exact Or.inl h'
        · exact Or.inr (ih h')

theorem akeys_nodup_aremove {α : Type} (l : SMap α) (k : String) (h : (akeys l).Nodup) :
    (akeys (aremove l k)).Nodup := by
  induction l with
  | nil => simpa [aremove] using h
  | cons kv rest ih =>
    cases kv with
    | mk k0 v0 =>
      rw [akeys_cons, List.nodup_cons] at h
      by_cases h0 : k0 = k
      · rw [aremove, if_pos h0]
        exact h.2
      · rw [aremove, if_neg h0, akeys_cons, List.nodup_cons]
        exact ⟨fun hc => h.1 (mem_akeys_aremove rest k k0 hc), ih h.2⟩

theorem not_mem_akeys_aremove {α : Type} (l : SMap α) (k : String) (h : (akeys l).Nodup) :
    k ∉ akeys (aremove l k) := by
  induction l with
  | nil => simp [aremove, akeys]
  | cons kv rest ih =>
    cases kv with
    | mk k0 v0 =>
      rw [akeys_cons, List.nodup_cons] at h
      by_cases h0 : k0 = k
      · subst h0
        rw [aremove, if_pos rfl]
        exact h.1
      · rw [aremove, if_neg h0, akeys_cons, List.mem_cons]
        rintro (rfl | hc)
        · exact h0 rfl
        · exact ih h.2 hc

theorem sinsert_perm (x : String) (l : List String) : (sinsert x l).Perm (x :: l) := by
  induction l with
  | nil => simp [sinsert]
  | cons y ys ih =>
    unfold sinsert
    by_cases h : strLeB x y = true
    · rw [if_pos h]
    · rw [if_neg h]
      exact (List.Perm.cons y ih).trans (List.Perm.swap x y ys)

theorem sortStrings_perm (l : List String) : (sortStrings l).Perm l := by
  induction l with
  | nil => simp [sortStrings]
  | cons x xs ih =>
    exact ((sinsert_perm x (sortStrings xs)).trans (List.Perm.cons x ih))

theorem promoteStart_perm (l : List String) : (promoteStart l).Perm l := by
  unfold promoteStart
  by_cases h1 : l.contains ("start") = true
  · rw [if_pos h1]
    exact (List.perm_cons_erase (by simpa using h1)).symm
  · rw [if_neg h1]
    by_cases h2 : l.contains ("n_start") = true
    · rw [if_pos h2]
      exact (List.perm_cons_erase (by simpa using h2)).symm
    · rw [if_neg h2]

theorem mem_promoteStart_sort {x : String} {l : List String} :
    x ∈ promoteStart (sortStrings l) ↔ x ∈ l :=
  ((promoteStart_perm (sortStrings l)).trans (sortStrings_perm l)).mem_iff

theorem strData_append (a b : String) : (a ++ b).data = a.data ++ b.data := by
  cases a; cases b; rfl

theorem foldl_preserv {β : Type} {γ : Type} {P : β → Prop} (step : β → γ → β)
    (l : List γ) (hs : ∀ b x, x ∈ l → P b → P (step b x)) :
    ∀ b : β, P b → P (l.foldl step b) := by
  induction l with
  | nil => intro b hb; exact hb
  | cons x xs ih =>
    intro b hb
    exact ih (fun b' y hy => hs b' y (List.mem_cons_of_mem x hy)) (step b x)
      (hs b x (List.mem_cons_self x xs) hb)

theorem alookup_mapEntries {α β : Type} (f : String → α → β) (l : SMap α) (k : String) :
    alookup (l.map (fun kn => (kn.1, f kn.1 kn.2))) k = (alookup l k).map (f k) := by
  induction l with
  | nil => simp [alookup]
  | cons kv rest ih =>
    by_cases h : kv.1 = k
    · rw [List.map_cons, alookup, alookup]
      simp only [if_pos h]
      subst h
      rfl
    · rw [List.map_cons, alookup, alookup]
      simp only [if_neg h]
      exact ih

theorem akeys_mapEntries {α β : Type} (f : String → α → β) (l : SMap α) :
    akeys (l.map (fun kn => (kn.1, f kn.1 kn.2))) = akeys l := by
  induction l with
  | nil => rfl
  | cons kv rest ih =>
    rw [List.map_cons, akeys_cons, akeys_cons, ih]

/-! # Counterexample theorems -/

theorem selfLoop_hasChoiceEdge {t : MovieTemplate} {k : String} (h : selfLoopAt t k = true) :
    hasChoiceEdge t k k := by
  unfold selfLoopAt at h
  cases hl : alookup t.nodes k with
  | none => rw [hl] at h; cases h
  | some n =>
    rw [hl] at h
    obtain ⟨c, hc, he⟩ := List.any_eq_true.mp h
    exact ⟨n, hl, c, hc, by simpa using he⟩

/-- C1 counterexample: on `c1Graph`, whose node key `"ending_neutral"` collides
with an ending key, `sanitize_template_graph` leaves a self-loop, i.e. a
one-step `Choice.target` traversal that revisits its node. -/
theorem c1_counterexample :
    Relation.TransGen (hasChoiceEdge (sanitize_template_graph c1Graph))
      ("ending_neutral") ("ending_neutral") :=
  Relation.TransGen.single (selfLoop_hasChoiceEdge (by decide))

/-- C2 counterexample: on `c2Graph` the sanitized output keeps the raw target
`" 1 "` (which is neither a node key, an ending key nor `"END"`) and keeps a
`"END"` target although the endings map is non-empty. -/
theorem c2_counterexample : claimC2holds (sanitize_template_graph c2Graph) = false := by decide

/-- C4 counterexample: after sanitizing `c4Graph` (whose node keys are
distinct), two distinct surviving nodes carry identical signatures. -/
theorem c4_counterexample :
    ((akeys (sanitize_template_graph c4Graph).nodes).Nodup) ∧
    ¬ (((sanitize_template_graph c4Graph).nodes.map (fun kn => nodeSignature kn.2)).Nodup) := by
  decide

/-- C5 counterexample: applying the handler's stage sequence a second time to
the output of the first application changes the graph. -/
theorem c5_counterexample : pipeline (pipeline c5Graph) ≠ pipeline c5Graph := by decide

/-- C7 counterexample: the handler's applied order (sanitize before node-key
normalization) and the spec's order (node-key normalization first) produce
different final graphs on `c7Graph`. -/
theorem c7_counterexample : pipeline c7Graph ≠ pipeline_spec_order c7Graph := by decide

/-- C8 counterexample: `normalize_template_nodes` leaves the id `"foo"` of node
`"start"` untouched, so not every node id equals its map key afterwards. -/
theorem c8_counterexample : allNodeIdsMatchKeys (normalize_template_nodes c8Graph) = false := by
  decide

/-- C9 counterexample: the non-entry node `"a"` of `c9Graph` has the same
signature as the entry node, yet it survives sanitization (it is not deleted
and no redirect to `"start"` happens). -/
theorem c9_counterexample :
    acontains (sanitize_template_graph c9Graph).nodes ("a") = true ∧
    acontains (sanitize_template_graph c9Graph).nodes ("start") = true := by decide

/-! # Trim idempotence -/

theorem dropWhile_idem (p : Char → Bool) (l : List Char) :
    (l.dropWhile p).dropWhile p = l.dropWhile p := by
  induction l with
  | nil => simp
  | cons c cs ih =>
    by_cases h : p c = true
    · rw [List.dropWhile_cons_of_pos h]
      exact ih
    · rw [List.dropWhile_cons_of_neg h, List.dropWhile_cons_of_neg h]

theorem dropWhile_eq_self_of_front {p : Char → Bool} {m l : List Char}
    (hm : m.dropWhile p = m) (hp : l <+: m) : l.dropWhile p = l := by
  cases l with
  | nil => simp
  | cons a l' =>
    obtain ⟨t, ht⟩ := hp
    have hpa : ¬ p a = true := by
      intro hh
      rw [← ht, List.cons_append, List.dropWhile_cons_of_pos hh] at hm
      have hlen := congrArg List.length hm
      have hle := (List.dropWhile_sublist (l := l' ++ t) p).length_le
      rw [List.length_cons] at hlen
      omega
    rw [List.dropWhile_cons_of_neg hpa]

theorem trimData_idem (l : List Char) :
    (((((((l.dropWhile Char.isWhitespace).reverse.dropWhile Char.isWhitespace).reverse).dropWhile
      Char.isWhitespace).reverse).dropWhile Char.isWhitespace).reverse)
    = ((l.dropWhile Char.isWhitespace).reverse.dropWhile Char.isWhitespace).reverse := by
  have hm := dropWhile_idem Char.isWhitespace l
  have hpre : ((l.dropWhile Char.isWhitespace).reverse.dropWhile Char.isWhitespace).reverse
      <+: l.dropWhile Char.isWhitespace := by
    have h1 := List.dropWhile_suffix (l := (l.dropWhile Char.isWhitespace).reverse)
      Char.isWhitespace
    have h2 := List.reverse_prefix.mpr h1
    simpa using h2
  rw [dropWhile_eq_self_of_front hm hpre, List.reverse_reverse, dropWhile_idem]

theorem rustTrim_idem (s : String) : rustTrim (rustTrim s) = rustTrim s :=
  congrArg String.mk (trimData_idem s.data)

/-! # C6 and C10: `sanitize_affinity_effects` -/

theorem intClamp_bounds (x : Int) : -20 ≤ intClamp x (-20) 20 ∧ intClamp x (-20) 20 ≤ 20 := by
  unfold intClamp
  split_ifs <;> omega

theorem mem_ainsert_sub {α : Type} (l : SMap α) (k : String) (v : α) (kn : String × α)
    (h : kn ∈ ainsert l k v) : kn = (k, v) ∨ kn ∈ l := by
  induction l with
  | nil => simpa [ainsert] using h
  | cons kv rest ih =>
    cases kv with
    | mk k0 v0 =>
      by_cases h0 : k0 = k
      · rw [ainsert, if_pos h0] at h
        rcases List.mem_cons.mp h with h' | h'
        · exact Or.inl h'
        · exact Or.inr (List.mem_cons_of_mem _ h')
      · rw [ainsert, if_neg h0] at h
        rcases List.mem_cons.mp h with h' | h'
        · exact Or.inr (h' ▸ List.mem_cons_self _ _)
        · rcases ih h' with h'' | h''
          · exact Or.inl h''
          · exact Or.inr (List.mem_cons_of_mem _ h'')

theorem idNameStep_values (m : SMap String) (kc : String × Character)
    (hm : ∀ x v, alookup m x = some v → rustTrim v = v ∧ v ≠ "") :
    ∀ x v, alookup (idNameStep m kc) x = some v → rustTrim v = v ∧ v ≠ "" := by
  intro x v h
  unfold idNameStep at h
  by_cases hc : rustTrim kc.2.id ≠ "" ∧ rustTrim kc.2.name ≠ ""
  · rw [if_pos hc] at h
    by_cases hx : rustTrim kc.2.id = x
    · rw [← hx, alookup_ainsert_self] at h
      obtain rfl : rustTrim kc.2.name = v := by injection h
      exact ⟨rustTrim_idem _, hc.2⟩
    · rw [alookup_ainsert_ne _ _ hx] at h
      exact hm x v h
  · rw [if_neg hc] at h
    exact hm x v h

theorem build_id_to_name_values (chars : SMap Character) :
    ∀ x v, alookup (build_id_to_name chars) x = some v → rustTrim v = v ∧ v ≠ "" := by
  unfold build_id_to_name
  apply foldl_preserv (P := fun m => ∀ x v, alookup m x = some v → rustTrim v = v ∧ v ≠ "")
    idNameStep chars (fun m kc _ hm => idNameStep_values m kc hm)
  intro x v h
  simp [alookup] at h

theorem sanitizeChoiceEffect_sound (itn : SMap String) (prot : Option String)
    (allowed : List String) (c : Choice) (e : AffinityEffect)
    (hv : ∀ x v, alookup itn x = some v → rustTrim v = v ∧ v ≠ "")
    (he : (sanitizeChoiceEffect itn prot allowed c).affinity_effect = some e) :
    ((-20 : Int) ≤ e.delta ∧ e.delta ≤ 20) ∧ rustTrim e.character_id = e.character_id ∧
    e.character_id ≠ "" ∧ e.character_id ∈ allowed ∧
    ∀ p, prot = some p → e.character_id ≠ p := by
  cases hae : c.affinity_effect with
  | none =>
    simp only [sanitizeChoiceEffect, hae] at he
    cases he
  | some effect0 =>
    simp only [sanitizeChoiceEffect, hae] at he
    by_cases hraw : rustTrim effect0.character_id = ""
    · rw [if_pos hraw] at he
      cases he
    · rw [if_neg hraw] at he
      have hres : rustTrim ((alookup itn (rustTrim effect0.character_id)).getD
          (rustTrim effect0.character_id)) = (alookup itn (rustTrim effect0.character_id)).getD
          (rustTrim effect0.character_id)
          ∧ (alookup itn (rustTrim effect0.character_id)).getD
              (rustTrim effect0.character_id) ≠ "" := by
        cases hlk : alookup itn (rustTrim effect0.character_id) with
        | none => exact ⟨by simpa using rustTrim_idem effect0.character_id, by simpa using hraw⟩
        | some v => simpa using hv _ v hlk
      set resolved := (alookup itn (rustTrim effect0.character_id)).getD
        (rustTrim effect0.character_id) with hresolved
      have hkeep : ∀ hk : allowed.contains resolved = true,
          ({ character_id := resolved, delta := intClamp effect0.delta (-20) 20 } : AffinityEffect) = e →
          ((-20 : Int) ≤ e.delta ∧ e.delta ≤ 20) ∧ rustTrim e.character_id = e.character_id ∧
          e.character_id ≠ "" ∧ e.character_id ∈ allowed := by
        intro hk hee
        subst hee
        exact ⟨intClamp_bounds _, hres.1, hres.2, by simpa using hk⟩
      cases prot with
      | none =>
        rw [if_neg (show ¬ (false = true) by simp)] at he
        by_cases hcont : allowed.contains resolved = true
        · rw [if_pos hcont] at he
          have hee : ({ character_id := resolved, delta := intClamp effect0.delta (-20) 20 } : AffinityEffect) = e := by
            injection he
          refine ⟨(hkeep hcont hee).1, (hkeep hcont hee).2.1, (hkeep hcont hee).2.2.1,
            (hkeep hcont hee).2.2.2, ?_⟩
          intro p hp
          cases hp
        · rw [if_neg hcont] at he
          cases he
      | some p =>
        by_cases hp : (p == resolved) = true
        · rw [if_pos hp] at he
          cases he
        · rw [if_neg hp] at he
          by_cases hcont : allowed.contains resolved = true
          · rw [if_pos hcont] at he
            have hee : ({ character_id := resolved, delta := intClamp effect0.delta (-20) 20 } : AffinityEffect) = e := by
              injection he
            refine ⟨(hkeep hcont hee).1, (hkeep hcont hee).2.1, (hkeep hcont hee).2.2.1,
              (hkeep hcont hee).2.2.2, ?_⟩
            intro p' hp'
            have hpp : p = p' := by injection hp'
            subst hpp
            intro hq
            rw [← hee] at hq
            apply hp
            simpa using hq.symm
          · rw [if_neg hcont] at he
            cases he

theorem sanitize_affinity_effects_sound (g : MovieTemplate) (kn : String × StoryNode)
    (hkn : kn ∈ (sanitize_affinity_effects g).nodes) (c : Choice) (hc : c ∈ kn.2.choices)
    (e : AffinityEffect) (he : c.affinity_effect = some e) :
    ((-20 : Int) ≤ e.delta ∧ e.delta ≤ 20) ∧ rustTrim e.character_id = e.character_id ∧
    e.character_id ≠ "" ∧
    e.character_id ∈ allowedNames (build_id_to_name g.characters) kn.2 ∧
    ∀ p, pick_protagonist_name g.characters = some p → e.character_id ≠ p := by
  unfold sanitize_affinity_effects at hkn
  by_cases hemp : g.nodes.isEmpty = true
  · rw [if_pos hemp] at hkn
    rw [List.isEmpty_iff] at hemp
    rw [hemp] at hkn
    cases hkn
  · rw [if_neg hemp] at hkn
    obtain ⟨kn0, hkn0, heq⟩ := List.mem_map.mp hkn
    subst heq
    obtain ⟨c0, hc0, hceq⟩ := List.mem_map.mp hc
    rw [← hceq] at he
    exact sanitizeChoiceEffect_sound (build_id_to_name g.characters)
      (pick_protagonist_name g.characters)
      (allowedNames (build_id_to_name g.characters) kn0.2) c0 e
      (build_id_to_name_values g.characters) he

/-- C6: after `sanitize_affinity_effects`, every choice that still carries an
affinity effect has its delta in [-20, 20], a non-blank resolved target, the
resolved target belongs to the owning node's (resolved) declared character
list, and it differs from the computed protagonist name. -/
theorem c6_effect_bounds (g : MovieTemplate) (kn : String × StoryNode)
    (hkn : kn ∈ (sanitize_affinity_effects g).nodes) (c : Choice) (hc : c ∈ kn.2.choices)
    (e : AffinityEffect) (he : c.affinity_effect = some e) :
    ((-20 : Int) ≤ e.delta ∧ e.delta ≤ 20) ∧ rustTrim e.character_id = e.character_id ∧
    e.character_id ≠ "" ∧
    e.character_id ∈ allowedNames (build_id_to_name g.characters) kn.2 ∧
    ∀ p, pick_protagonist_name g.characters = some p → e.character_id ≠ p :=
  sanitize_affinity_effects_sound g kn hkn c hc e he

theorem pickStep_isSome (best : Option (Int × String)) (kc : String × Character)
    (h : best.isSome = true) : (pickStep best kc).isSome = true := by
  unfold pickStep
  by_cases hn : rustTrim kc.2.name = ""
  · rw [if_pos hn]
    exact h
  · rw [if_neg hn]
    cases best with
    | none => cases h
    | some bs =>
      simp only [apply_ite Option.isSome, Option.isSome_some, ite_self]

theorem pickStep_isSome_of_name (best : Option (Int × String)) (kc : String × Character)
    (h : rustTrim kc.2.name ≠ "") : (pickStep best kc).isSome = true := by
  unfold pickStep
  rw [if_neg h]
  cases best with
  | none => rfl
  | some bs =>
    simp only [apply_ite Option.isSome, Option.isSome_some, ite_self]

theorem pick_fold_isSome (l : SMap Character) :
    ∀ best, (best.isSome = true ∨ ∃ kc ∈ l, rustTrim kc.2.name ≠ "") →
    (l.foldl pickStep best).isSome = true := by
  induction l with
  | nil =>
    intro best h
    rcases h with h | ⟨kc, hkc, _⟩
    · exact h
    · cases hkc
  | cons kc l ih =>
    intro best h
    rw [List.foldl_cons]
    rcases h with h | ⟨kc', hkc', hname⟩
    · exact ih _ (Or.inl (pickStep_isSome _ _ h))
    · rcases List.mem_cons.mp hkc' with rfl | hmem
      · exact ih _ (Or.inl (pickStep_isSome_of_name _ _ hname))
      · exact ih _ (Or.inr ⟨kc', hmem, hname⟩)

/-- C10: whenever some cast entry has a non-empty trimmed name,
`pick_protagonist_name` designates a protagonist (even if every entry scores
zero), and `sanitize_affinity_effects` consequently drops every affinity
effect whose resolved target equals that name. -/
theorem c10_protagonist_total (g : MovieTemplate)
    (h : ∃ kc ∈ g.characters, rustTrim kc.2.name ≠ "") :
    ∃ p, pick_protagonist_name g.characters = some p ∧
      ∀ kn ∈ (sanitize_affinity_effects g).nodes, ∀ c ∈ kn.2.choices, ∀ e,
        c.affinity_effect = some e → e.character_id ≠ p := by
  have hsome : (pick_protagonist_name g.characters).isSome = true := by
    unfold pick_protagonist_name
    have hne : g.characters.isEmpty = false := by
      obtain ⟨kc, hkc, _⟩ := h
      cases hg : g.characters with
      | nil => rw [hg] at hkc; cases hkc
      | cons a l => rfl
    rw [hne]
    simp only [Bool.false_eq_true, if_false]
    obtain ⟨v, hv⟩ := Option.isSome_iff_exists.mp (pick_fold_isSome g.characters none (Or.inr h))
    rw [hv]
    rfl
  obtain ⟨p, hp⟩ := Option.isSome_iff_exists.mp hsome
  refine ⟨p, hp, ?_⟩
  intro kn hkn c hc e he
  exact (sanitize_affinity_effects_sound g kn hkn c hc e he).2.2.2.2 p hp

/-- C10 witness: `c10WitnessGraph` has a cast entry with a non-empty name and
no protagonist-scoring signals; the theorem still yields a protagonist. -/
theorem c10_witness :
    ∃ p, pick_protagonist_name c10WitnessGraph.characters = some p ∧
      ∀ kn ∈ (sanitize_affinity_effects c10WitnessGraph).nodes, ∀ c ∈ kn.2.choices, ∀ e,
        c.affinity_effect = some e → e.character_id ≠ p :=
  c10_protagonist_total c10WitnessGraph (by decide)

/-- C6 witness: on `c6WitnessGraph` the surviving effect (`"bob"`, delta
clamped from 35 to 20) satisfies all the guarantees of the theorem. -/
theorem c6_witness :
    ((-20 : Int) ≤ (({ character_id := "bob", delta := 20 } : AffinityEffect)).delta ∧
      (({ character_id := "bob", delta := 20 } : AffinityEffect)).delta ≤ 20) ∧
    rustTrim (({ character_id := "bob", delta := 20 } : AffinityEffect)).character_id
      = (({ character_id := "bob", delta := 20 } : AffinityEffect)).character_id ∧
    (({ character_id := "bob", delta := 20 } : AffinityEffect)).character_id ≠ "" ∧
    (({ character_id := "bob", delta := 20 } : AffinityEffect)).character_id
      ∈ allowedNames (build_id_to_name c6WitnessGraph.characters)
        ({ c6StartNode with choices := [{ text := "t", next_node_id := "ending_good", affinity_effect := some { character_id := "bob", delta := 20 } }] }) ∧
    ∀ p, pick_protagonist_name c6WitnessGraph.characters = some p →
      (({ character_id := "bob", delta := 20 } : AffinityEffect)).character_id ≠ p :=
  c6_effect_bounds c6WitnessGraph
    ("start", { c6StartNode with choices := [{ text := "t", next_node_id := "ending_good", affinity_effect := some { character_id := "bob", delta := 20 } }] })
    (by decide)
    ({ text := "t", next_node_id := "ending_good", affinity_effect := some { character_id := "bob", delta := 20 } })
    (by decide)
    ({ character_id := "bob", delta := 20 })
    (by decide)

/-! # C7: stage order -/

/-- C7 (amended): the handler applies the graph sanitizer *before* the
node-key normalizer, and the two orders disagree in general
(`c7_counterexample`); they do agree on inputs for which the node-key
normalizer is the identity both before and after sanitization. -/
theorem c7_amended (g : MovieTemplate)
    (h1 : normalize_template_nodes (normalize_template_endings (normalize_character_ids g))
      = normalize_template_endings (normalize_character_ids g))
    (h2 : normalize_template_nodes (sanitize_template_graph
        (normalize_template_endings (normalize_character_ids g)))
      = sanitize_template_graph (normalize_template_endings (normalize_character_ids g))) :
    pipeline g = pipeline_spec_order g := by
  unfold pipeline pipeline_spec_order
  rw [h1, h2]

/-- C7 witness: on `c7WitnessGraph` the node-key normalizer is the identity at
both points, and the two pipeline orders agree. -/
theorem c7_witness : pipeline c7WitnessGraph = pipeline_spec_order c7WitnessGraph :=
  c7_amended c7WitnessGraph (by decide) (by decide)

/-! # C8: node id resynchronization -/

theorem nodeRebuildStep_src (mapping : SMap String) (ns : SMap StoryNode)
    (kn0 x : String × StoryNode) (hx : x ∈ nodeRebuildStep mapping ns kn0) :
    x ∈ ns ∨ x.2.id = x.1 ∨
      (x.2.id = kn0.2.id ∧ kn0.2.id ≠ "" ∧ kn0.2.id ≠ kn0.1) := by
  simp only [nodeRebuildStep] at hx
  rcases mem_ainsert_sub _ _ _ _ hx with rfl | hx'
  · by_cases hcomp : kn0.2.id = "" ∨ kn0.2.id = kn0.1
    · right; left
      show ((if kn0.2.id = "" ∨ kn0.2.id = kn0.1 then
          ({ kn0.2 with id := (alookup mapping kn0.1).getD kn0.1 } : StoryNode)
          else kn0.2)).id = (alookup mapping kn0.1).getD kn0.1
      rw [if_pos hcomp]
    · right; right
      push_neg at hcomp
      refine ⟨?_, hcomp.1, hcomp.2⟩
      show ((if kn0.2.id = "" ∨ kn0.2.id = kn0.1 then
          ({ kn0.2 with id := (alookup mapping kn0.1).getD kn0.1 } : StoryNode)
          else kn0.2)).id = kn0.2.id
      rw [if_neg (by push_neg; exact hcomp)]
  · exact Or.inl hx'

/-- C8 (amended): after `normalize_template_nodes`, every node either has its
`id` equal to its (new) map key, or its `id` is the verbatim non-empty `id` of
an input node that already differed from that node's old map key. In
particular an input node whose `id` was empty or equal to its old key is
resynchronized, while a non-empty `id` that already disagreed with its key is
left unchanged, so mismatches are not repaired in general (see
`c8_counterexample`). This holds for every input graph, with no hypothesis. -/
theorem c8_amended (g : MovieTemplate) :
    ∀ kn ∈ (normalize_template_nodes g).nodes,
      kn.2.id = kn.1 ∨
      ∃ kn0, kn0 ∈ g.nodes ∧ kn.2.id = kn0.2.id ∧ kn0.2.id ≠ "" ∧ kn0.2.id ≠ kn0.1 := by
  unfold normalize_template_nodes
  by_cases hemp : g.nodes.isEmpty = true
  · rw [if_pos hemp]
    rw [List.isEmpty_iff] at hemp
    intro kn hkn
    rw [hemp] at hkn
    cases hkn
  · rw [if_neg hemp]
    by_cases hm : (nodeKeyMapping (sortStrings (akeys g.nodes))).1.isEmpty = true
    · rw [if_pos hm]
      intro kn hkn
      obtain ⟨kn0, hkn0, heq⟩ := List.mem_map.mp hkn
      by_cases hz : kn0.2.id = ""
      · left
        rw [← heq]
        simp only [if_pos hz]
      · by_cases hk : kn0.2.id = kn0.1
        · left
          rw [← heq]
          simp only [if_neg hz]
          exact hk
        · right
          refine ⟨kn0, hkn0, ?_, hz, hk⟩
          rw [← heq]
          simp only [if_neg hz]
    · rw [if_neg hm]
      show ∀ kn ∈ List.foldl (nodeRebuildStep (nodeKeyMapping (sortStrings (akeys g.nodes))).1)
        [] g.nodes, kn.2.id = kn.1 ∨
        ∃ kn0, kn0 ∈ g.nodes ∧ kn.2.id = kn0.2.id ∧ kn0.2.id ≠ "" ∧ kn0.2.id ≠ kn0.1
      refine foldl_preserv (P := fun ns : SMap StoryNode => ∀ x ∈ ns, x.2.id = x.1 ∨
        ∃ kn0, kn0 ∈ g.nodes ∧ x.2.id = kn0.2.id ∧ kn0.2.id ≠ "" ∧ kn0.2.id ≠ kn0.1)
        (nodeRebuildStep (nodeKeyMapping (sortStrings (akeys g.nodes))).1) g.nodes ?_ [] ?_
      · intro ns kn0 hmem hns x hx
        rcases nodeRebuildStep_src _ ns kn0 x hx with h' | h' | h'
        · exact hns x h'
        · exact Or.inl h'
        · exact Or.inr ⟨kn0, hmem, h'.1, h'.2.1, h'.2.2⟩
      · intro x hx
        cases hx

/-- C8 witness: in the mixed-free graph `c8WitnessGraph` the node stored under
the renamed key `"1"` is in the output and its id was resynchronized to that
key. -/
theorem c8_witness :
    ((("1" : String), mkNode ("1") ("x") [mkChoice ("c") ("2")]) ∈
      (normalize_template_nodes c8WitnessGraph).nodes) ∧
    (((("1" : String), mkNode ("1") ("x") [mkChoice ("c") ("2")]).2.id
        = (("1" : String), mkNode ("1") ("x") [mkChoice ("c") ("2")]).1) ∨
      ∃ kn0, kn0 ∈ c8WitnessGraph.nodes ∧
        (("1" : String), mkNode ("1") ("x") [mkChoice ("c") ("2")]).2.id = kn0.2.id ∧
        kn0.2.id ≠ "" ∧ kn0.2.id ≠ kn0.1) :=
  ⟨by decide,
    c8_amended c8WitnessGraph (("1" : String), mkNode ("1") ("x") [mkChoice ("c") ("2")])
      (by decide)⟩

/-! # Preservation lemmas for the sanitizer passes -/

theorem akeys_map_fst {α β : Type} (f : String × α → String × β)
    (hf : ∀ kn, (f kn).1 = kn.1) (l : SMap α) : akeys (l.map f) = akeys l := by
  induction l with
  | nil => rfl
  | cons kn rest ih =>
    rw [List.map_cons, akeys_cons, akeys_cons, hf, ih]

theorem alookup_map_fst {α β : Type} (f : String × α → String × β)
    (hf : ∀ kn, (f kn).1 = kn.1) (l : SMap α) (k : String) :
    alookup (l.map f) k = (alookup l k).map (fun v => (f (k, v)).2) := by
  induction l with
  | nil => rfl
  | cons kn rest ih =>
    rw [List.map_cons, alookup, alookup]
    by_cases h : kn.1 = k
    · have hkn : (k, kn.2) = kn := by rw [← h]
      rw [if_pos (by rw [hf]; exact h), if_pos h, Option.map_some', hkn]
    · rw [if_neg (by rw [hf]; exact h), if_neg h]
      exact ih

theorem mem_akeys_map_fst {α β : Type} {f : String × α → String × β}
    (hf : ∀ kn, (f kn).1 = kn.1) {l : SMap α} {k : String} :
    k ∈ akeys (l.map f) ↔ k ∈ akeys l := by
  rw [akeys_map_fst f hf]

theorem akeys_ainsert_mem {α : Type} (l : SMap α) (k : String) (v : α) (h : k ∈ akeys l) :
    akeys (ainsert l k v) = akeys l := by
  induction l with
  | nil => cases h
  | cons kv rest ih =>
    cases kv with
    | mk k0 v0 =>
      by_cases h0 : k0 = k
      · rw [ainsert, if_pos h0, akeys_cons, akeys_cons, h0]
      · rw [akeys_cons, List.mem_cons] at h
        rcases h with h | h
        · exact absurd h.symm h0
        · rw [ainsert, if_neg h0, akeys_cons, akeys_cons, ih h]

theorem rewriteNodeChoices_fields (t : MovieTemplate) (cur target fb : String) :
    (rewriteNodeChoices t cur target fb).endings = t.endings ∧
    (rewriteNodeChoices t cur target fb).characters = t.characters ∧
    akeys (rewriteNodeChoices t cur target fb).nodes = akeys t.nodes := by
  refine ⟨rfl, rfl, ?_⟩
  unfold rewriteNodeChoices
  exact akeys_map_fst _ (fun kn => by by_cases h : kn.1 = cur <;> simp [h]) t.nodes

theorem sanitize_dfs_pres : ∀ (fuel : Nat) (cur : String) (t : MovieTemplate)
    (st : SMap Nat) (fb : String),
    (sanitize_dfs fuel cur t st fb).1.endings = t.endings ∧
    (sanitize_dfs fuel cur t st fb).1.characters = t.characters ∧
    akeys (sanitize_dfs fuel cur t st fb).1.nodes = akeys t.nodes := by
  intro fuel
  induction fuel with
  | zero => exact fun cur t st fb => ⟨rfl, rfl, rfl⟩
  | succ n ih =>
    intro cur t st fb
    simp only [sanitize_dfs]
    refine foldl_preserv (P := fun acc : MovieTemplate × SMap Nat =>
      acc.1.endings = t.endings ∧ acc.1.characters = t.characters ∧
      akeys acc.1.nodes = akeys t.nodes) _ _ ?_ _ ⟨rfl, rfl, rfl⟩
    intro acc next _ hacc
    by_cases h1 : next = cur
    · rw [if_pos h1]
      have hr := rewriteNodeChoices_fields acc.1 cur cur fb
      exact ⟨hr.1.trans hacc.1, hr.2.1.trans hacc.2.1, hr.2.2.trans hacc.2.2⟩
    · rw [if_neg h1]
      by_cases h2 : acontains acc.1.nodes next = true
      · rw [if_pos h2]
        by_cases h3 : stateOf acc.2 next = 1
        · rw [if_pos h3]
          have hr := rewriteNodeChoices_fields acc.1 cur next fb
          exact ⟨hr.1.trans hacc.1, hr.2.1.trans hacc.2.1, hr.2.2.trans hacc.2.2⟩
        · rw [if_neg h3]
          by_cases h4 : stateOf acc.2 next = 0
          · rw [if_pos h4]
            have hr := ih next acc.1 acc.2 fb
            exact ⟨hr.1.trans hacc.1, hr.2.1.trans hacc.2.1, hr.2.2.trans hacc.2.2⟩
          · rw [if_neg h4]
            exact hacc
      · rw [if_neg h2]
        exact hacc

theorem sanitize_cycle_break_pres (t : MovieTemplate) (enk : String) :
    (sanitize_cycle_break t enk).endings = t.endings ∧
    (sanitize_cycle_break t enk).characters = t.characters ∧
    akeys (sanitize_cycle_break t enk).nodes = akeys t.nodes := by
  unfold sanitize_cycle_break
  refine foldl_preserv (P := fun acc : MovieTemplate × SMap Nat =>
    acc.1.endings = t.endings ∧ acc.1.characters = t.characters ∧
    akeys acc.1.nodes = akeys t.nodes) _ _ ?_ _ ⟨rfl, rfl, rfl⟩
  intro acc nid _ hacc
  unfold dfsRootStep
  by_cases h : stateOf acc.2 nid = 0
  · rw [if_pos h]
    have hr := sanitize_dfs_pres (acc.1.nodes.length + 1) nid acc.1 acc.2 enk
    exact ⟨hr.1.trans hacc.1, hr.2.1.trans hacc.2.1, hr.2.2.trans hacc.2.2⟩
  · rw [if_neg h]
    exact hacc

theorem sanitize_dedup_pres (t : MovieTemplate) :
    (sanitize_dedup t).endings = t.endings ∧ (sanitize_dedup t).characters = t.characters := by
  simp only [sanitize_dedup]
  split
  · exact ⟨rfl, rfl⟩
  · exact ⟨rfl, rfl⟩

theorem endingTransferStep_akeys (ns : SMap StoryNode) (fr_to : String × String) :
    akeys (endingTransferStep ns fr_to) = akeys ns := by
  unfold endingTransferStep
  cases h1 : (alookup ns fr_to.1).bind (fun n => n.ending_key) with
  | none => rfl
  | some k =>
    cases h2 : alookup ns fr_to.2 with
    | none => rfl
    | some to_node =>
      show akeys (if to_node.ending_key = none then
        ainsert ns fr_to.2 { to_node with ending_key := some k } else ns) = akeys ns
      by_cases h3 : to_node.ending_key = none
      · rw [if_pos h3]
        exact akeys_ainsert_mem _ _ _ (mem_akeys_of_lookup h2)
      · rw [if_neg h3]

theorem sanitize_dedup_akeys_sub (t : MovieTemplate) (k : String)
    (h : k ∈ akeys (sanitize_dedup t).nodes) : k ∈ akeys t.nodes := by
  simp only [sanitize_dedup] at h
  split at h
  · exact h
  · revert h
    show k ∈ akeys (List.foldl _ (List.foldl endingTransferStep _ _) _) → _
    intro h
    have hsub : ∀ (rd : SMap String) (ns : SMap StoryNode),
        k ∈ akeys (rd.foldl (fun ns fr_to => aremove ns fr_to.1) ns) → k ∈ akeys ns := by
      intro rd
      induction rd with
      | nil => exact fun ns h => h
      | cons fr rest ih =>
        intro ns h
        rw [List.foldl_cons] at h
        exact mem_akeys_aremove _ _ _ (ih _ h)
    have h1 := hsub _ _ h
    have htr : ∀ (rd : SMap String) (ns : SMap StoryNode),
        akeys (rd.foldl endingTransferStep ns) = akeys ns := by
      intro rd
      induction rd with
      | nil => exact fun ns => rfl
      | cons fr rest ih =>
        intro ns
        rw [List.foldl_cons, ih, endingTransferStep_akeys]
    rw [htr] at h1
    exact (mem_akeys_map_fst (by intro kn; rfl)).mp h1

theorem sanitize_template_graph_endings (g : MovieTemplate) :
    (sanitize_template_graph g).endings = g.endings := by
  simp only [sanitize_template_graph]
  split
  · rfl
  · show (sanitize_fill_marker _ _ _).endings = _
    show (sanitize_cycle_break (sanitize_dedup g) _).endings = _
    rw [(sanitize_cycle_break_pres _ _).1, (sanitize_dedup_pres _).1]

/-! # C3: terminal consistency -/

theorem ending_neutral_key_mem (t : MovieTemplate) (h : "ending_neutral" ∈ akeys t.endings) :
    ending_neutral_key t = "ending_neutral" := by
  unfold ending_neutral_key
  rw [if_pos ((acontains_iff _ _).mpr h)]

theorem fill_clear_node (n0 : StoryNode) (ending_keys : List String) (enk : String) :
    ∀ n1 n2 : StoryNode,
    n1 = (match n0.ending_key with
          | some ek => if ending_keys.contains ek then { n0 with choices := [] } else n0
          | none => n0) →
    n2 = (if n1.choices.isEmpty then
            (if (match n1.ending_key with
                 | some k => ending_keys.contains k
                 | none => false) = true then n1
             else if ending_keys.contains enk then { n1 with ending_key := some enk } else n1)
          else n1) →
    ((∃ ek, n2.ending_key = some ek ∧ ek ∈ ending_keys) → n2.choices = []) ∧
    (n2.choices = [] → (∃ ek, n2.ending_key = some ek ∧ ek ∈ ending_keys) ∨ enk ∉ ending_keys) := by
  intro n1 n2 h1 h2
  by_cases hemp : n1.choices.isEmpty = true
  · rw [if_pos hemp] at h2
    have hch : n1.choices = [] := by simpa [List.isEmpty_iff] using hemp
    by_cases hval : (match n1.ending_key with
        | some k => ending_keys.contains k
        | none => false) = true
    · rw [if_pos hval] at h2
      rw [h2]
      refine ⟨fun _ => hch, fun _ => Or.inl ?_⟩
      cases hek : n1.ending_key with
      | none => rw [hek] at hval; cases hval
      | some k =>
        rw [hek] at hval
        exact ⟨k, rfl, by simpa using hval⟩
    · rw [if_neg hval] at h2
      by_cases hcont : ending_keys.contains enk = true
      · rw [if_pos hcont] at h2
        rw [h2]
        exact ⟨fun _ => hch, fun _ => Or.inl ⟨enk, rfl, by simpa using hcont⟩⟩
      · rw [if_neg hcont] at h2
        rw [h2]
        exact ⟨fun _ => hch, fun _ => Or.inr (fun hmem => hcont (by simpa using hmem))⟩
  · rw [if_neg hemp] at h2
    rw [h2]
    have hne : ¬ n1.choices = [] := by
      intro hh
      exact hemp (by simp [hh])
    refine ⟨?_, fun hc => absurd hc hne⟩
    rintro ⟨ek, hek, hmem⟩
    cases hek0 : n0.ending_key with
    | none =>
      rw [hek0] at h1
      have h1' : n1 = n0 := h1
      rw [h1'] at hek
      rw [hek0] at hek
      cases hek
    | some ek0 =>
      rw [hek0] at h1
      have h1' : n1 = (if ending_keys.contains ek0 = true then
          { n0 with ending_key := some ek0, choices := [] } else n0) := h1
      by_cases hcont0 : ending_keys.contains ek0 = true
      · rw [if_pos hcont0] at h1'
        rw [h1'] at hne
        exact absurd rfl hne
      · rw [if_neg hcont0] at h1'
        rw [h1'] at hek
        rw [hek0] at hek
        have hkk : ek0 = ek := by injection hek
        subst hkk
        exact absurd (by simpa using hmem) hcont0

theorem terminal_consistency_DE (t : MovieTemplate) (ending_keys : List String) (enk : String)
    (kn : String × StoryNode)
    (hkn : kn ∈ (sanitize_fill_marker (sanitize_clear_terminal t ending_keys)
      ending_keys enk).nodes) :
    ((∃ ek, kn.2.ending_key = some ek ∧ ek ∈ ending_keys) → kn.2.choices = []) ∧
    (kn.2.choices = [] →
      (∃ ek, kn.2.ending_key = some ek ∧ ek ∈ ending_keys) ∨ enk ∉ ending_keys) := by
  unfold sanitize_fill_marker at hkn
  obtain ⟨kn1, hkn1, heq⟩ := List.mem_map.mp hkn
  unfold sanitize_clear_terminal at hkn1
  obtain ⟨kn0, hkn0, heq1⟩ := List.mem_map.mp hkn1
  subst heq
  subst heq1
  exact fill_clear_node kn0.2 ending_keys enk _ _ rfl rfl

/-- C3: after `sanitize_template_graph`, a node's choice list is empty iff its
terminal marker names an existing ending, except that a node may be
terminal-but-unmarked when no neutral ending exists. -/
theorem c3_terminal_consistency (g : MovieTemplate) (kn : String × StoryNode)
    (hkn : kn ∈ (sanitize_template_graph g).nodes) :
    ((∃ ek, kn.2.ending_key = some ek ∧ ek ∈ akeys (sanitize_template_graph g).endings) →
      kn.2.choices = []) ∧
    (kn.2.choices = [] →
      (∃ ek, kn.2.ending_key = some ek ∧ ek ∈ akeys (sanitize_template_graph g).endings) ∨
      "ending_neutral" ∉ akeys (sanitize_template_graph g).endings) := by
  rw [sanitize_template_graph_endings]
  by_cases hemp : g.nodes.isEmpty = true
  · unfold sanitize_template_graph at hkn
    rw [if_pos hemp] at hkn
    rw [List.isEmpty_iff] at hemp
    rw [hemp] at hkn
    cases hkn
  · unfold sanitize_template_graph at hkn
    rw [if_neg hemp] at hkn
    have hDE := terminal_consistency_DE _ _ _ kn hkn
    have hE : akeys (sanitize_cycle_break (sanitize_dedup g) (ending_neutral_key g)).endings
        = akeys g.endings := by
      rw [(sanitize_cycle_break_pres _ _).1, (sanitize_dedup_pres _).1]
    rw [hE] at hDE
    refine ⟨hDE.1, fun hc => ?_⟩
    rcases hDE.2 hc with h | h
    · exact Or.inl h
    · right
      intro hmem
      exact h (by rw [ending_neutral_key_mem g hmem]; exact hmem)

/-- C3 witness: the terminal node of `c3WitnessGraph` carries a valid marker
and indeed has no choices after sanitization. -/
theorem c3_witness :
    (("start", ({ id := "start", content := "s", ending_key := some ("ending_neutral"), level := none, characters := none, choices := [] } : StoryNode)) : String × StoryNode).2.choices = [] :=
  (c3_terminal_consistency c3WitnessGraph
    ("start", { id := "start", content := "s", ending_key := some ("ending_neutral"), level := none, characters := none, choices := [] })
    (by decide)).1 ⟨"ending_neutral", rfl, by decide⟩

/-! # C5: idempotence -/

theorem ainsert_ne_nil {α : Type} (l : SMap α) (k : String) (v : α) : ainsert l k v ≠ [] := by
  cases l with
  | nil => simp [ainsert]
  | cons kv rest =>
    cases kv with
    | mk k0 v0 =>
      unfold ainsert
      split <;> simp

theorem ainsert_append {α : Type} (l : SMap α) (k : String) (v : α) (h : k ∉ akeys l) :
    ainsert l k v = l ++ [(k, v)] := by
  induction l with
  | nil => rfl
  | cons kv rest ih =>
    cases kv with
    | mk k0 v0 =>
      rw [akeys_cons, List.mem_cons] at h
      push_neg at h
      rw [ainsert, if_neg (fun hh => h.1 hh.symm), List.cons_append, ih h.2]

theorem akeys_append {α : Type} (a b : SMap α) : akeys (a ++ b) = akeys a ++ akeys b :=
  List.map_append _ _ _

theorem akeys_nodup_ainsert {α : Type} (l : SMap α) (k : String) (v : α)
    (h : (akeys l).Nodup) : (akeys (ainsert l k v)).Nodup := by
  by_cases hk : k ∈ akeys l
  · rw [akeys_ainsert_mem _ _ _ hk]
    exact h
  · rw [ainsert_append _ _ _ hk, akeys_append]
    rw [List.nodup_append]
    refine ⟨h, by simp [akeys], ?_⟩
    intro a ha hmem
    have : a = k := by simpa [akeys] using hmem
    subst this
    exact hk ha

theorem map_self {α : Type} (f : α → α) (l : List α) (h : ∀ x ∈ l, f x = x) : l.map f = l := by
  induction l with
  | nil => rfl
  | cons x xs ih =>
    rw [List.map_cons, h x (List.mem_cons_self x xs),
      ih (fun y hy => h y (List.mem_cons_of_mem x hy))]

theorem charKeyStep_entry_inv (acc : SMap Character) (kc : String × Character)
    (hacc : ∀ x ∈ acc,
      (if x.2.name ≠ "" then x.2.name else if x.2.id ≠ "" then x.2.id else x.1) = x.1 ∧
      x.2.id = x.1) :
    ∀ x ∈ charKeyStep acc kc,
      (if x.2.name ≠ "" then x.2.name else if x.2.id ≠ "" then x.2.id else x.1) = x.1 ∧
      x.2.id = x.1 := by
  intro x hx
  rcases mem_ainsert_sub _ _ _ _ hx with rfl | hx'
  · refine ⟨?_, rfl⟩
    by_cases hn : kc.2.name = ""
    · by_cases hi : kc.2.id = ""
      · simp [hn, hi]
      · simp [hn, hi]
    · simp [hn]
  · exact hacc x hx'

theorem charKeyStep_eq_ainsert (acc : SMap Character) (kc : String × Character)
    (h : (if kc.2.name ≠ "" then kc.2.name else if kc.2.id ≠ "" then kc.2.id else kc.1) = kc.1 ∧
      kc.2.id = kc.1) :
    charKeyStep acc kc = ainsert acc kc.1 kc.2 := by
  simp only [charKeyStep]
  rw [h.1]
  rw [← h.2]

theorem charKeyStep_nodup (acc : SMap Character) (kc : String × Character)
    (h : (akeys acc).Nodup) : (akeys (charKeyStep acc kc)).Nodup := by
  unfold charKeyStep
  exact akeys_nodup_ainsert _ _ _ h

theorem foldl_rebuild {α : Type} (step : SMap α → (String × α) → SMap α)
    (l : List (String × α))
    (hstep : ∀ acc kc, kc ∈ l → step acc kc = ainsert acc kc.1 kc.2) :
    ∀ acc, (akeys (acc ++ l)).Nodup → l.foldl step acc = acc ++ l := by
  induction l with
  | nil => intro acc _; simp
  | cons kc rest ih =>
    intro acc hnd
    rw [List.foldl_cons, hstep acc kc (List.mem_cons_self kc rest)]
    have hk : kc.1 ∉ akeys acc := by
      rw [akeys_append] at hnd
      rcases List.nodup_append.mp hnd with ⟨_, _, hdisj⟩
      intro hmem
      exact hdisj hmem (by simp [akeys])
    rw [ainsert_append _ _ _ hk]
    have heq : acc ++ [(kc.1, kc.2)] = acc ++ [kc] := by rfl
    rw [heq]
    have := ih (fun acc' kc' hm => hstep acc' kc' (List.mem_cons_of_mem kc hm)) (acc ++ [kc])
      (by rwa [List.append_assoc, List.singleton_append])
    rwa [List.append_assoc, List.singleton_append] at this

theorem normalize_character_ids_idem (t : MovieTemplate) :
    normalize_character_ids (normalize_character_ids t) = normalize_character_ids t := by
  have hinv : ∀ x ∈ t.characters.foldl charKeyStep [],
      (if x.2.name ≠ "" then x.2.name else if x.2.id ≠ "" then x.2.id else x.1) = x.1 ∧
      x.2.id = x.1 :=
    foldl_preserv (P := fun m => ∀ x ∈ m,
        (if x.2.name ≠ "" then x.2.name else if x.2.id ≠ "" then x.2.id else x.1) = x.1 ∧
        x.2.id = x.1)
      charKeyStep t.characters (fun m kc _ hm => charKeyStep_entry_inv m kc hm) []
      (by intro x hx; cases hx)
  have hnd : (akeys (t.characters.foldl charKeyStep [])).Nodup :=
    foldl_preserv (P := fun m => (akeys m).Nodup) charKeyStep t.characters
      (fun m kc _ hm => charKeyStep_nodup m kc hm) [] (by simp [akeys])
  have hfix : (t.characters.foldl charKeyStep []).foldl charKeyStep []
      = t.characters.foldl charKeyStep [] := by
    have := foldl_rebuild charKeyStep (t.characters.foldl charKeyStep [])
      (fun acc kc hkc => charKeyStep_eq_ainsert acc kc (hinv kc hkc)) []
      (by simpa using hnd)
    simpa using this
  show ({ normalize_character_ids t with
    characters := (t.characters.foldl charKeyStep []).foldl charKeyStep [] } : MovieTemplate)
    = normalize_character_ids t
  rw [hfix]
  rfl

theorem canonicalize_key_canonical {k c : String} (h : canonicalize_key k = some c) :
    canonicalize_key c = some c := by
  have hc : c = "ending_good" ∨ c = "ending_neutral" ∨ c = "ending_bad" := by
    simp only [canonicalize_key] at h
    split_ifs at h with h1 h2 h3
    · exact Or.inl (by injection h with h'; exact h'.symm)
    · exact Or.inr (Or.inl (by injection h with h'; exact h'.symm))
    · exact Or.inr (Or.inr (by injection h with h'; exact h'.symm))
  rcases hc with rfl | rfl | rfl <;> decide

theorem mem_akeys_exists {α : Type} {l : SMap α} {k : String} (h : k ∈ akeys l) :
    ∃ v, (k, v) ∈ l := by
  obtain ⟨kv, hkv, hfst⟩ := List.mem_map.mp h
  exact ⟨kv.2, by rwa [show (k, kv.2) = kv from by rw [← hfst]]⟩

theorem moved_mem {es : SMap Ending} {fr_to : String × String}
    (h : fr_to ∈ es.filterMap (fun ke =>
      match canonicalize_key ke.1 with
      | some canonical => if canonical ≠ ke.1 then some (ke.1, canonical) else none
      | none => none)) :
    canonicalize_key fr_to.1 = some fr_to.2 ∧ fr_to.2 ≠ fr_to.1 := by
  obtain ⟨ke, hke, hf⟩ := List.mem_filterMap.mp h
  cases hcan : canonicalize_key ke.1 with
  | none => rw [hcan] at hf; cases hf
  | some c =>
    rw [hcan] at hf
    have hf' : (if c ≠ ke.1 then some (ke.1, c) else none) = some fr_to := hf
    by_cases hne : c ≠ ke.1
    · rw [if_pos hne] at hf'
      have hpair : (ke.1, c) = fr_to := by injection hf'
      rw [← hpair]
      exact ⟨hcan, hne⟩
    · rw [if_neg hne] at hf'
      cases hf'

theorem moved_complete {es : SMap Ending} {k c : String} (hk : k ∈ akeys es)
    (hcan : canonicalize_key k = some c) (hne : c ≠ k) :
    (k, c) ∈ es.filterMap (fun ke =>
      match canonicalize_key ke.1 with
      | some canonical => if canonical ≠ ke.1 then some (ke.1, canonical) else none
      | none => none) := by
  obtain ⟨v, hv⟩ := mem_akeys_exists hk
  refine List.mem_filterMap.mpr ⟨(k, v), hv, ?_⟩
  show (match canonicalize_key k with
    | some canonical => if canonical ≠ k then some (k, canonical) else none
    | none => none) = some (k, c)
  rw [hcan]
  show (if c ≠ k then some (k, c) else none) = some (k, c)
  rw [if_pos hne]

theorem endingMoveStep_nodup (es : SMap Ending) (p : String × String)
    (h : (akeys es).Nodup) : (akeys (endingMoveStep es p)).Nodup := by
  unfold endingMoveStep
  by_cases hc : acontains es p.2 = true
  · rw [if_pos hc]
    exact akeys_nodup_aremove _ _ h
  · rw [if_neg hc]
    cases hl : alookup es p.1 with
    | none => exact h
    | some v =>
      show (akeys (ainsert (aremove es p.1) p.2 v)).Nodup
      exact akeys_nodup_ainsert _ _ _ (akeys_nodup_aremove _ _ h)

theorem endingMoveStep_keys (es : SMap Ending) (p : String × String) (k : String)
    (hnd : (akeys es).Nodup)
    (hk : k ∈ akeys (endingMoveStep es p)) :
    (k ∈ akeys es ∧ k ≠ p.1) ∨ k = p.2 := by
  unfold endingMoveStep at hk
  by_cases hc : acontains es p.2 = true
  · rw [if_pos hc] at hk
    left
    refine ⟨mem_akeys_aremove _ _ _ hk, ?_⟩
    intro hkp
    rw [hkp] at hk
    exact not_mem_akeys_aremove es p.1 hnd hk
  · rw [if_neg hc] at hk
    cases hl : alookup es p.1 with
    | none =>
      rw [hl] at hk
      left
      refine ⟨hk, ?_⟩
      intro hkp
      rw [hkp] at hk
      exact (alookup_eq_none_iff es p.1).mp hl hk
    | some v =>
      rw [hl] at hk
      have hk' : k ∈ akeys (ainsert (aremove es p.1) p.2 v) := hk
      rcases (mem_akeys_ainsert _ _ _ _).mp hk' with h' | h'
      · exact Or.inr h'
      · left
        refine ⟨mem_akeys_aremove _ _ _ h', ?_⟩
        intro hkp
        rw [hkp] at h'
        exact not_mem_akeys_aremove es p.1 hnd h'

theorem endingMoveStep_fold_good (moved : List (String × String))
    (hmv : ∀ fr_to ∈ moved, canonicalize_key fr_to.1 = some fr_to.2 ∧ fr_to.2 ≠ fr_to.1) :
    ∀ es : SMap Ending, (akeys es).Nodup →
    (∀ k ∈ akeys es, (canonicalize_key k = none ∨ canonicalize_key k = some k) ∨
      ∃ c, canonicalize_key k = some c ∧ c ≠ k ∧ (k, c) ∈ moved) →
    (akeys (moved.foldl endingMoveStep es)).Nodup ∧
    (∀ k ∈ akeys (moved.foldl endingMoveStep es),
      canonicalize_key k = none ∨ canonicalize_key k = some k) := by
  induction moved with
  | nil =>
    intro es hnd hgood
    refine ⟨hnd, fun k hk => ?_⟩
    rcases hgood k hk with h | ⟨c, _, _, hc⟩
    · exact h
    · cases hc
  | cons p rest ih =>
    intro es hnd hgood
    rw [List.foldl_cons]
    refine ih (fun q hq => hmv q (List.mem_cons_of_mem p hq)) _
      (endingMoveStep_nodup es p hnd) ?_
    intro k hk
    rcases endingMoveStep_keys es p k hnd hk with ⟨hmem, hne⟩ | rfl
    · rcases hgood k hmem with h | ⟨c, hcan, hcne, hcmem⟩
      · exact Or.inl h
      · rcases List.mem_cons.mp hcmem with heq | hrest
        · exact absurd (congrArg Prod.fst heq) hne
        · exact Or.inr ⟨c, hcan, hcne, hrest⟩
    · left
      right
      exact canonicalize_key_canonical (hmv p (List.mem_cons_self p rest)).1

theorem canonChoice_idem (c c' : Choice)
    (h : c' = (match canonicalize_key c.next_node_id with
      | some canonical => { c with next_node_id := canonical }
      | none => c)) :
    (match canonicalize_key c'.next_node_id with
      | some canonical => { c' with next_node_id := canonical }
      | none => c') = c' := by
  cases hcan : canonicalize_key c.next_node_id with
  | none =>
    rw [hcan] at h
    have h' : c' = c := h
    subst h'
    rw [hcan]
  | some x =>
    rw [hcan] at h
    have h' : c' = { c with next_node_id := x } := h
    subst h'
    show (match canonicalize_key x with
      | some canonical => { ({ c with next_node_id := x } : Choice) with next_node_id := canonical }
      | none => ({ c with next_node_id := x } : Choice)) = { c with next_node_id := x }
    rw [canonicalize_key_canonical hcan]

theorem nte_characters_eq (t : MovieTemplate) :
    (normalize_template_endings t).characters = t.characters := by
  unfold normalize_template_endings
  by_cases h0 : t.endings.isEmpty = true
  · rw [if_pos h0]
  · rw [if_neg h0]

theorem nte_nodes_eq (t : MovieTemplate) (h0 : ¬ t.endings.isEmpty = true) :
    (normalize_template_endings t).nodes = t.nodes.map canonNode := by
  unfold normalize_template_endings
  rw [if_neg h0]
  rfl

theorem nte_endings_eq (t : MovieTemplate) (h0 : ¬ t.endings.isEmpty = true)
    (E1 : SMap Ending)
    (hE1 : E1 = ((t.endings.filterMap (fun ke =>
      match canonicalize_key ke.1 with
      | some canonical => if canonical ≠ ke.1 then some (ke.1, canonical) else none
      | none => none)).foldl endingMoveStep t.endings)) :
    (normalize_template_endings t).endings =
      (if 5 < E1.length then
        (if (["ending_good", "ending_neutral", "ending_bad"].foldl (endingPickStep E1) []).length < 5
         then E1.foldl endingKeepStep
           (["ending_good", "ending_neutral", "ending_bad"].foldl (endingPickStep E1) [])
         else ["ending_good", "ending_neutral", "ending_bad"].foldl (endingPickStep E1) [])
       else E1) := by
  subst hE1
  unfold normalize_template_endings
  rw [if_neg h0]

theorem endingPickStep_good (E1 : SMap Ending) :
    ∀ k ∈ akeys (["ending_good", "ending_neutral", "ending_bad"].foldl (endingPickStep E1) []),
      canonicalize_key k = none ∨ canonicalize_key k = some k := by
  refine foldl_preserv (P := fun keep => ∀ k ∈ akeys keep,
    canonicalize_key k = none ∨ canonicalize_key k = some k) _ _ ?_ [] ?_
  · intro keep x hx hkeep k hk
    unfold endingPickStep at hk
    cases hl : alookup E1 x with
    | none => rw [hl] at hk; exact hkeep k hk
    | some v =>
      rw [hl] at hk
      have hk' : k ∈ akeys (ainsert keep x v) := hk
      rcases (mem_akeys_ainsert _ _ _ _).mp hk' with rfl | h'
      · simp only [List.mem_cons, List.not_mem_nil, or_false] at hx
        rcases hx with rfl | rfl | rfl
        · right; decide
        · right; decide
        · right; decide
      · exact hkeep k h'
  · intro k hk
    cases hk

theorem endingKeepStep_good (E1 keep0 : SMap Ending)
    (hE1 : ∀ k ∈ akeys E1, canonicalize_key k = none ∨ canonicalize_key k = some k)
    (hkeep0 : ∀ k ∈ akeys keep0, canonicalize_key k = none ∨ canonicalize_key k = some k) :
    ∀ k ∈ akeys (E1.foldl endingKeepStep keep0),
      canonicalize_key k = none ∨ canonicalize_key k = some k := by
  refine foldl_preserv (P := fun keep => ∀ k ∈ akeys keep,
    canonicalize_key k = none ∨ canonicalize_key k = some k) _ _ ?_ keep0 hkeep0
  intro keep kv hkv hkeep k hk
  unfold endingKeepStep at hk
  by_cases h5 : 5 ≤ keep.length
  · rw [if_pos h5] at hk; exact hkeep k hk
  · rw [if_neg h5] at hk
    by_cases hc : acontains keep kv.1 = true
    · rw [if_pos hc] at hk; exact hkeep k hk
    · rw [if_neg hc] at hk
      rcases (mem_akeys_ainsert _ _ _ _).mp hk with rfl | h'
      · exact hE1 kv.1 (List.mem_map.mpr ⟨kv, hkv, rfl⟩)
      · exact hkeep k h'

theorem nte_endings_good (t : MovieTemplate) (hnd : (akeys t.endings).Nodup) :
    ∀ k ∈ akeys (normalize_template_endings t).endings,
      canonicalize_key k = none ∨ canonicalize_key k = some k := by
  by_cases h0 : t.endings.isEmpty = true
  · have hft : normalize_template_endings t = t := by
      unfold normalize_template_endings; rw [if_pos h0]
    rw [hft, List.isEmpty_iff.mp h0]
    intro k hk
    cases hk
  · have hmv : ∀ fr_to ∈ (t.endings.filterMap (fun ke =>
        match canonicalize_key ke.1 with
        | some canonical => if canonical ≠ ke.1 then some (ke.1, canonical) else none
        | none => none)), canonicalize_key fr_to.1 = some fr_to.2 ∧ fr_to.2 ≠ fr_to.1 :=
      fun fr_to h => moved_mem h
    have hinit : ∀ k ∈ akeys t.endings,
        (canonicalize_key k = none ∨ canonicalize_key k = some k) ∨
        ∃ c, canonicalize_key k = some c ∧ c ≠ k ∧ (k, c) ∈ (t.endings.filterMap (fun ke =>
          match canonicalize_key ke.1 with
          | some canonical => if canonical ≠ ke.1 then some (ke.1, canonical) else none
          | none => none)) := by
      intro k hk
      cases hcan : canonicalize_key k with
      | none => exact Or.inl (Or.inl rfl)
      | some c =>
        by_cases hne : c = k
        · exact Or.inl (Or.inr (by rw [hne]))
        · exact Or.inr ⟨c, rfl, hne, moved_complete hk hcan hne⟩
    have hE1 := endingMoveStep_fold_good _ hmv t.endings hnd hinit
    rw [nte_endings_eq t h0 _ rfl]
    by_cases h5 : 5 < ((t.endings.filterMap (fun ke =>
        match canonicalize_key ke.1 with
        | some canonical => if canonical ≠ ke.1 then some (ke.1, canonical) else none
        | none => none)).foldl endingMoveStep t.endings).length
    · rw [if_pos h5]
      by_cases hkl : (["ending_good", "ending_neutral", "ending_bad"].foldl
          (endingPickStep ((t.endings.filterMap (fun ke =>
            match canonicalize_key ke.1 with
            | some canonical => if canonical ≠ ke.1 then some (ke.1, canonical) else none
            | none => none)).foldl endingMoveStep t.endings)) []).length < 5
      · rw [if_pos hkl]
        exact endingKeepStep_good _ _ hE1.2 (endingPickStep_good _)
      · rw [if_neg hkl]
        exact endingPickStep_good _
    · rw [if_neg h5]
      exact hE1.2

theorem ainsert_length_le {α : Type} (l : SMap α) (k : String) (v : α) :
    (ainsert l k v).length ≤ l.length + 1 := by
  induction l with
  | nil => simp [ainsert]
  | cons kv rest ih =>
    cases kv with
    | mk k0 v0 =>
      show (if k0 = k then (k, v) :: rest else (k0, v0) :: ainsert rest k v).length ≤
        ((k0, v0) :: rest).length + 1
      by_cases h : k0 = k
      · rw [if_pos h]
        simp
      · rw [if_neg h]
        simpa using Nat.succ_le_succ ih

theorem endingKeepStep_len (keep : SMap Ending) (kv : String × Ending)
    (h : keep.length ≤ 5) : (endingKeepStep keep kv).length ≤ 5 := by
  unfold endingKeepStep
  by_cases h5 : 5 ≤ keep.length
  · rw [if_pos h5]; exact h
  · rw [if_neg h5]
    by_cases hc : acontains keep kv.1 = true
    · rw [if_pos hc]; exact h
    · rw [if_neg hc]
      calc (ainsert keep kv.1 kv.2).length ≤ keep.length + 1 := ainsert_length_le _ _ _
        _ ≤ 5 := by omega

theorem endingPickStep_fold_len (E1 : SMap Ending) (ks : List String) :
    ∀ keep : SMap Ending, (ks.foldl (endingPickStep E1) keep).length ≤ keep.length + ks.length := by
  induction ks with
  | nil => intro keep; simp
  | cons x xs ih =>
    intro keep
    rw [List.foldl_cons]
    refine le_trans (ih (endingPickStep E1 keep x)) ?_
    have hstep : (endingPickStep E1 keep x).length ≤ keep.length + 1 := by
      unfold endingPickStep
      cases hl : alookup E1 x with
      | none => simp
      | some v =>
        show (ainsert keep x v).length ≤ keep.length + 1
        exact ainsert_length_le _ _ _
    simp only [List.length_cons]
    omega

theorem nte_endings_len (t : MovieTemplate) (h0 : ¬ t.endings.isEmpty = true) :
    (normalize_template_endings t).endings.length ≤ 5 := by
  rw [nte_endings_eq t h0 _ rfl]
  by_cases h5 : 5 < ((t.endings.filterMap (fun ke =>
      match canonicalize_key ke.1 with
      | some canonical => if canonical ≠ ke.1 then some (ke.1, canonical) else none
      | none => none)).foldl endingMoveStep t.endings).length
  · rw [if_pos h5]
    have hkeep0 : (["ending_good", "ending_neutral", "ending_bad"].foldl
        (endingPickStep ((t.endings.filterMap (fun ke =>
          match canonicalize_key ke.1 with
          | some canonical => if canonical ≠ ke.1 then some (ke.1, canonical) else none
          | none => none)).foldl endingMoveStep t.endings)) []).length ≤ 3 := by
      simpa using endingPickStep_fold_len _ ["ending_good", "ending_neutral", "ending_bad"] []
    by_cases hkl : (["ending_good", "ending_neutral", "ending_bad"].foldl
        (endingPickStep ((t.endings.filterMap (fun ke =>
          match canonicalize_key ke.1 with
          | some canonical => if canonical ≠ ke.1 then some (ke.1, canonical) else none
          | none => none)).foldl endingMoveStep t.endings)) []).length < 5
    · rw [if_pos hkl]
      refine foldl_preserv (P := fun keep : SMap Ending => keep.length ≤ 5) _ _ ?_ _ (by omega)
      intro keep kv _ h
      exact endingKeepStep_len keep kv h
    · rw [if_neg hkl]
      omega
  · rw [if_neg h5]
    omega

theorem mt_ext (a b : MovieTemplate) (hn : a.nodes = b.nodes)
    (he : a.endings = b.endings) (hc : a.characters = b.characters) : a = b := by
  cases a
  cases b
  simp_all

theorem canonChoice_idem2 (c : Choice) : canonChoice (canonChoice c) = canonChoice c :=
  canonChoice_idem c (canonChoice c) rfl

theorem canonChoice_comp : canonChoice ∘ canonChoice = canonChoice :=
  funext fun c => canonChoice_idem2 c

theorem canonRewrite_idem (ns : SMap StoryNode) :
    (ns.map canonNode).map canonNode = ns.map canonNode := by
  apply map_self
  intro kn' hkn'
  obtain ⟨kn, _, heq⟩ := List.mem_map.mp hkn'
  rw [← heq]
  show (kn.1, ({ kn.2 with choices := (kn.2.choices.map canonChoice).map canonChoice } : StoryNode)) = canonNode kn
  rw [List.map_map, canonChoice_comp]
  rfl

theorem nte_of_empty (t : MovieTemplate) (h : t.endings.isEmpty = true) :
    normalize_template_endings t = t := by
  unfold normalize_template_endings
  rw [if_pos h]

theorem normalize_template_endings_idem (t : MovieTemplate)
    (hnd : (akeys t.endings).Nodup) :
    normalize_template_endings (normalize_template_endings t) =
      normalize_template_endings t := by
  by_cases h0 : t.endings.isEmpty = true
  · rw [nte_of_empty t h0, nte_of_empty t h0]
  · by_cases h0' : (normalize_template_endings t).endings.isEmpty = true
    · exact nte_of_empty _ h0'
    · have hmoved : ((normalize_template_endings t).endings.filterMap (fun ke =>
          match canonicalize_key ke.1 with
          | some canonical => if canonical ≠ ke.1 then some (ke.1, canonical) else none
          | none => none)) = ([] : List (String × String)) := by
        rw [List.filterMap_eq_nil_iff]
        intro ke hke
        rcases nte_endings_good t hnd ke.1 (List.mem_map.mpr ⟨ke, hke, rfl⟩) with hg | hg
        · show (match canonicalize_key ke.1 with
            | some canonical => if canonical ≠ ke.1 then some (ke.1, canonical) else none
            | none => none) = none
          rw [hg]
        · show (match canonicalize_key ke.1 with
            | some canonical => if canonical ≠ ke.1 then some (ke.1, canonical) else none
            | none => none) = none
          rw [hg]
          show (if ke.1 ≠ ke.1 then some (ke.1, ke.1) else none) = none
          rw [if_neg (by intro h; exact h rfl)]
      have hlen : (normalize_template_endings t).endings.length ≤ 5 :=
        nte_endings_len t h0
      refine mt_ext _ _ ?_ ?_ (nte_characters_eq _)
      · rw [nte_nodes_eq _ h0', nte_nodes_eq t h0]
        exact canonRewrite_idem t.nodes
      · rw [nte_endings_eq _ h0' ((normalize_template_endings t).endings)
          (by rw [hmoved]; rfl)]
        rw [if_neg (by omega)]

/-- **C5** (corrected). The full pipeline is not idempotent — see
`c5_counterexample`, where the first run merges choices onto two previously
distinct nodes and only the second run collapses the resulting duplicates.
What does hold of the spec's "individually idempotent" reading for the key
normalisers: `normalize_character_ids` is idempotent on every template, and
`normalize_template_endings` is idempotent on every template whose ending
keys are duplicate-free. -/
theorem c5_amended :
    (∀ t : MovieTemplate,
      normalize_character_ids (normalize_character_ids t) = normalize_character_ids t) ∧
    (∀ t : MovieTemplate, (akeys t.endings).Nodup →
      normalize_template_endings (normalize_template_endings t) = normalize_template_endings t) :=
  ⟨normalize_character_ids_idem, normalize_template_endings_idem⟩

theorem c5_witness :
    (akeys c5WitnessGraph.endings).Nodup ∧
    normalize_template_endings (normalize_template_endings c5WitnessGraph) =
      normalize_template_endings c5WitnessGraph ∧
    normalize_character_ids (normalize_character_ids c5WitnessGraph) =
      normalize_character_ids c5WitnessGraph :=
  ⟨by decide, c5_amended.2 c5WitnessGraph (by decide), c5_amended.1 c5WitnessGraph⟩

theorem nodeSignature_has_bar (n : StoryNode) : '|' ∈ (nodeSignature n).data := by
  show '|' ∈ ((rustTrim n.content ++ "||" ++ joinSep ("|") (sortStrings (n.choices.map (fun c =>
    rustTrim c.text ++ "→" ++ rustTrim c.next_node_id)))).data)
  rw [strData_append, strData_append]
  exact List.mem_append.mpr (Or.inl (List.mem_append.mpr (Or.inr (by decide))))

theorem dedupStep_own (g : MovieTemplate) (sr : SMap String × SMap String) (x k : String)
    (n : StoryNode)
    (h : k ∈ akeys sr.2 ∨ alookup sr.1 (nodeSignature n) = some k) :
    k ∈ akeys (dedupStep g sr x).2 ∨
      alookup (dedupStep g sr x).1 (nodeSignature n) = some k := by
  unfold dedupStep
  by_cases hx : x = "start" ∨ x = "n_start"
  · rw [if_pos hx]
    rcases h with h | h
    · exact Or.inl h
    · right
      show alookup (ainsert sr.1 x "") (nodeSignature n) = some k
      rw [alookup_ainsert_ne]
      · exact h
      · intro hceq
        have hb := nodeSignature_has_bar n
        rw [← hceq] at hb
        rcases hx with rfl | rfl
        · exact absurd hb (by decide)
        · exact absurd hb (by decide)
  · rw [if_neg hx]
    cases hlx : alookup g.nodes x with
    | none => exact h
    | some node =>
      show k ∈ akeys (match alookup sr.1 (nodeSignature node) with
          | some owner => if owner ≠ x then (sr.1, ainsert sr.2 x owner) else sr
          | none => (ainsert sr.1 (nodeSignature node) x, sr.2)).2 ∨
        alookup (match alookup sr.1 (nodeSignature node) with
          | some owner => if owner ≠ x then (sr.1, ainsert sr.2 x owner) else sr
          | none => (ainsert sr.1 (nodeSignature node) x, sr.2)).1 (nodeSignature n) = some k
      cases hsig : alookup sr.1 (nodeSignature node) with
      | some owner =>
        show k ∈ akeys (if owner ≠ x then (sr.1, ainsert sr.2 x owner) else sr).2 ∨
          alookup (if owner ≠ x then (sr.1, ainsert sr.2 x owner) else sr).1
            (nodeSignature n) = some k
        split
        · rcases h with h | h
          · exact Or.inl ((mem_akeys_ainsert _ _ _ _).mpr (Or.inr h))
          · exact Or.inr h
        · exact h
      | none =>
        show k ∈ akeys (ainsert sr.1 (nodeSignature node) x, sr.2).2 ∨
          alookup (ainsert sr.1 (nodeSignature node) x, sr.2).1 (nodeSignature n) = some k
        rcases h with h | h
        · exact Or.inl h
        · right
          by_cases heq : nodeSignature node = nodeSignature n
          · rw [heq] at hsig
            rw [hsig] at h
            cases h
          · rw [alookup_ainsert_ne _ _ heq]
            exact h

theorem dedupStep_establish (g : MovieTemplate) (sr : SMap String × SMap String) (x : String)
    (n : StoryNode) (hn : alookup g.nodes x = some n)
    (hs : ¬ (x = "start" ∨ x = "n_start")) :
    x ∈ akeys (dedupStep g sr x).2 ∨
      alookup (dedupStep g sr x).1 (nodeSignature n) = some x := by
  unfold dedupStep
  rw [if_neg hs, hn]
  show x ∈ akeys (match alookup sr.1 (nodeSignature n) with
      | some owner => if owner ≠ x then (sr.1, ainsert sr.2 x owner) else sr
      | none => (ainsert sr.1 (nodeSignature n) x, sr.2)).2 ∨
    alookup (match alookup sr.1 (nodeSignature n) with
      | some owner => if owner ≠ x then (sr.1, ainsert sr.2 x owner) else sr
      | none => (ainsert sr.1 (nodeSignature n) x, sr.2)).1 (nodeSignature n) = some x
  cases hsig : alookup sr.1 (nodeSignature n) with
  | some owner =>
    show x ∈ akeys (if owner ≠ x then (sr.1, ainsert sr.2 x owner) else sr).2 ∨
      alookup (if owner ≠ x then (sr.1, ainsert sr.2 x owner) else sr).1
        (nodeSignature n) = some x
    split
    · exact Or.inl ((mem_akeys_ainsert _ _ _ _).mpr (Or.inl rfl))
    · next how =>
      right
      rw [hsig]
      exact congrArg some (of_not_not how)
  | none =>
    show x ∈ akeys (ainsert sr.1 (nodeSignature n) x, sr.2).2 ∨
      alookup (ainsert sr.1 (nodeSignature n) x, sr.2).1 (nodeSignature n) = some x
    exact Or.inr (alookup_ainsert_self _ _ _)

theorem dedup_fold_own (g : MovieTemplate) (x : String) (n : StoryNode)
    (hn : alookup g.nodes x = some n) (hs : ¬ (x = "start" ∨ x = "n_start")) :
    ∀ (ks : List String), x ∈ ks → ∀ sr : SMap String × SMap String,
      x ∈ akeys (ks.foldl (dedupStep g) sr).2 ∨
      alookup (ks.foldl (dedupStep g) sr).1 (nodeSignature n) = some x := by
  intro ks
  induction ks with
  | nil => intro hx; cases hx
  | cons y ys ih =>
    intro hx sr
    rw [List.foldl_cons]
    rcases List.mem_cons.mp hx with rfl | hmem
    · refine foldl_preserv (P := fun sr' : SMap String × SMap String =>
        x ∈ akeys sr'.2 ∨ alookup sr'.1 (nodeSignature n) = some x) _ _ ?_ _
        (dedupStep_establish g sr x n hn hs)
      intro b z _ hb
      exact dedupStep_own g b z x n hb
    · exact ih hmem (dedupStep g sr y)

theorem fold_transfer_akeys (rd : SMap String) :
    ∀ ns : SMap StoryNode, akeys (rd.foldl endingTransferStep ns) = akeys ns := by
  induction rd with
  | nil => exact fun ns => rfl
  | cons fr rest ih =>
    intro ns
    rw [List.foldl_cons, ih, endingTransferStep_akeys]

theorem fold_aremove_sub {α : Type} (l : SMap String) (k : String) :
    ∀ ns : SMap α, k ∈ akeys (l.foldl (fun ns fr_to => aremove ns fr_to.1) ns) →
      k ∈ akeys ns := by
  induction l with
  | nil => exact fun ns h => h
  | cons fr rest ih =>
    intro ns h
    rw [List.foldl_cons] at h
    exact mem_akeys_aremove _ _ _ (ih _ h)

theorem fold_aremove_not_mem {α : Type} (k : String) :
    ∀ l : SMap String, k ∈ akeys l → ∀ ns : SMap α, (akeys ns).Nodup →
      k ∉ akeys (l.foldl (fun ns fr_to => aremove ns fr_to.1) ns) := by
  intro l
  induction l with
  | nil => intro hk; simp [akeys] at hk
  | cons fr rest ih =>
    intro hk ns hnd
    rw [List.foldl_cons]
    rw [akeys_cons, List.mem_cons] at hk
    rcases hk with heq | hmem
    · subst heq
      intro hcontra
      exact not_mem_akeys_aremove ns fr.1 hnd (fold_aremove_sub rest _ _ hcontra)
    · exact ih hmem (aremove ns fr.1) (akeys_nodup_aremove _ _ hnd)

theorem dedup_removed (g : MovieTemplate) (hnd : (akeys g.nodes).Nodup) (k : String)
    (hmem : k ∈ akeys ((promoteStart (sortStrings (akeys g.nodes))).foldl
      (dedupStep g) ([], [])).2) :
    k ∉ akeys (sanitize_dedup g).nodes := by
  simp only [sanitize_dedup]
  split
  · next hred =>
    rw [List.isEmpty_iff.mp hred] at hmem
    simp [akeys] at hmem
  · next hred =>
    intro hk
    refine fold_aremove_not_mem k _ hmem _ ?_ hk
    rw [fold_transfer_akeys, akeys_map_fst _ (by intro kn; rfl)]
    exact hnd

theorem sanitize_ref_repair_akeys (t : MovieTemplate) (nk ek : List String) (fb : String) :
    akeys (sanitize_ref_repair t nk ek fb).nodes = akeys t.nodes := by
  unfold sanitize_ref_repair
  exact akeys_map_fst _ (by intro kn; rfl) t.nodes

theorem sanitize_clear_terminal_akeys (t : MovieTemplate) (ek : List String) :
    akeys (sanitize_clear_terminal t ek).nodes = akeys t.nodes := by
  unfold sanitize_clear_terminal
  exact akeys_map_fst _ (by intro kn; rfl) t.nodes

theorem sanitize_fill_marker_akeys (t : MovieTemplate) (ek : List String) (enk : String) :
    akeys (sanitize_fill_marker t ek enk).nodes = akeys t.nodes := by
  unfold sanitize_fill_marker
  exact akeys_map_fst _ (by intro kn; rfl) t.nodes

theorem sanitize_template_graph_akeys (g : MovieTemplate) (h : ¬ g.nodes.isEmpty = true) :
    akeys (sanitize_template_graph g).nodes = akeys (sanitize_dedup g).nodes := by
  simp only [sanitize_template_graph]
  rw [if_neg h]
  rw [sanitize_fill_marker_akeys, sanitize_clear_terminal_akeys, sanitize_ref_repair_akeys,
    (sanitize_cycle_break_pres _ _).2.2]

/-- **C4** (corrected). In the final graph two distinct surviving nodes can
share an identical signature (see `c4_counterexample`: the reference-repair
pass rewrites dangling targets to a common fallback, re-creating collisions).
What the duplicate-collapse pass does guarantee is uniqueness of signatures
as computed at collapse time: for any input graph with duplicate-free node
keys, two surviving non-entry node keys whose nodes had equal signatures in
the input must be the same key. -/
theorem c4_amended (g : MovieTemplate) (hnd : (akeys g.nodes).Nodup) (k1 k2 : String)
    (h1 : k1 ∈ akeys (sanitize_template_graph g).nodes)
    (h2 : k2 ∈ akeys (sanitize_template_graph g).nodes)
    (hs1 : ¬ (k1 = "start" ∨ k1 = "n_start"))
    (hs2 : ¬ (k2 = "start" ∨ k2 = "n_start"))
    (hsig : Option.map nodeSignature (alookup g.nodes k1) =
            Option.map nodeSignature (alookup g.nodes k2)) :
    k1 = k2 := by
  by_cases hemp : g.nodes.isEmpty = true
  · exfalso
    have hgg : sanitize_template_graph g = g := by
      simp only [sanitize_template_graph]
      rw [if_pos hemp]
    rw [hgg, List.isEmpty_iff.mp hemp] at h1
    simp [akeys] at h1
  · rw [sanitize_template_graph_akeys g hemp] at h1 h2
    have hm1 : k1 ∈ akeys g.nodes := sanitize_dedup_akeys_sub g k1 h1
    have hm2 : k2 ∈ akeys g.nodes := sanitize_dedup_akeys_sub g k2 h2
    obtain ⟨n1, hn1⟩ := Option.isSome_iff_exists.mp ((alookup_isSome_iff g.nodes k1).mpr hm1)
    obtain ⟨n2, hn2⟩ := Option.isSome_iff_exists.mp ((alookup_isSome_iff g.nodes k2).mpr hm2)
    have ho1 := dedup_fold_own g k1 n1 hn1 hs1 (promoteStart (sortStrings (akeys g.nodes)))
      (mem_promoteStart_sort.mpr hm1) ([], [])
    have ho2 := dedup_fold_own g k2 n2 hn2 hs2 (promoteStart (sortStrings (akeys g.nodes)))
      (mem_promoteStart_sort.mpr hm2) ([], [])
    rcases ho1 with ho1 | ho1
    · exact absurd h1 (dedup_removed g hnd k1 ho1)
    rcases ho2 with ho2 | ho2
    · exact absurd h2 (dedup_removed g hnd k2 ho2)
    rw [hn1, hn2] at hsig
    simp only [Option.map_some'] at hsig
    injection hsig with hss
    rw [hss] at ho1
    rw [ho2] at ho1
    injection ho1 with hk
    exact hk.symm

theorem c4_witness :
    (akeys c4WitnessGraph.nodes).Nodup ∧
    ("a" ∈ akeys (sanitize_template_graph c4WitnessGraph).nodes) ∧
    ¬ (("a" : String) = "start" ∨ ("a" : String) = "n_start") ∧
    ("a" : String) = "a" :=
  ⟨by decide, by decide, by decide,
    c4_amended c4WitnessGraph (by decide) "a" "a" (by decide) (by decide)
      (by decide) (by decide) rfl⟩

theorem mem_akeys_aremove_ne {α : Type} (ns : SMap α) (k k' : String)
    (h : k ∈ akeys ns) (hne : k ≠ k') : k ∈ akeys (aremove ns k') := by
  induction ns with
  | nil => cases h
  | cons kv rest ih =>
    rw [akeys_cons, List.mem_cons] at h
    show k ∈ akeys (if kv.1 = k' then rest else kv :: aremove rest k')
    by_cases h0 : kv.1 = k'
    · rw [if_pos h0]
      rcases h with h | h
      · exact absurd (h.trans h0) hne
      · exact h
    · rw [if_neg h0]
      rw [akeys_cons, List.mem_cons]
      rcases h with h | h
      · exact Or.inl h
      · exact Or.inr (ih h)

theorem fold_aremove_mem {α : Type} (k : String) :
    ∀ l : SMap String, k ∉ akeys l → ∀ ns : SMap α, k ∈ akeys ns →
      k ∈ akeys (l.foldl (fun ns fr_to => aremove ns fr_to.1) ns) := by
  intro l
  induction l with
  | nil => exact fun _ ns h => h
  | cons fr rest ih =>
    intro hk ns h
    rw [akeys_cons, List.mem_cons] at hk
    push_neg at hk
    rw [List.foldl_cons]
    exact ih hk.2 (aremove ns fr.1) (mem_akeys_aremove_ne ns k fr.1 h hk.1)

theorem dedupStep_redirect_entries (g : MovieTemplate) (sr : SMap String × SMap String)
    (x : String)
    (hP : ∀ k ∈ akeys sr.2, ¬ (k = "start" ∨ k = "n_start")) :
    ∀ k ∈ akeys (dedupStep g sr x).2, ¬ (k = "start" ∨ k = "n_start") := by
  unfold dedupStep
  by_cases hx : x = "start" ∨ x = "n_start"
  · rw [if_pos hx]
    exact hP
  · rw [if_neg hx]
    cases hlx : alookup g.nodes x with
    | none => exact hP
    | some node =>
      show ∀ k ∈ akeys (match alookup sr.1 (nodeSignature node) with
          | some owner => if owner ≠ x then (sr.1, ainsert sr.2 x owner) else sr
          | none => (ainsert sr.1 (nodeSignature node) x, sr.2)).2,
        ¬ (k = "start" ∨ k = "n_start")
      cases hsig : alookup sr.1 (nodeSignature node) with
      | some owner =>
        show ∀ k ∈ akeys (if owner ≠ x then (sr.1, ainsert sr.2 x owner) else sr).2,
          ¬ (k = "start" ∨ k = "n_start")
        split
        · intro k hk
          rcases (mem_akeys_ainsert _ _ _ _).mp hk with rfl | hk'
          · exact hx
          · exact hP k hk'
        · exact hP
      | none => exact hP

theorem dedup_redirect_no_entry (g : MovieTemplate) :
    ∀ k ∈ akeys ((promoteStart (sortStrings (akeys g.nodes))).foldl
      (dedupStep g) ([], [])).2, ¬ (k = "start" ∨ k = "n_start") := by
  refine foldl_preserv (P := fun sr : SMap String × SMap String =>
    ∀ k ∈ akeys sr.2, ¬ (k = "start" ∨ k = "n_start")) _ _ ?_ _ ?_
  · intro sr x _ hP
    exact dedupStep_redirect_entries g sr x hP
  · intro k hk
    cases hk

/-- **C9** (corrected). The entry node is indeed exempt from duplicate removal
and always survives sanitization. But the entry is in fact never recorded as a
signature owner: the code inserts `(entry_key, "")` into the owner map — keyed
by the node id, not by the entry's signature — so a non-entry node sharing the
entry's signature is NOT deleted and no targets are redirected to the entry
(see `c9_counterexample`). -/
theorem c9_amended (g : MovieTemplate) (h : "start" ∈ akeys g.nodes) :
    "start" ∈ akeys (sanitize_template_graph g).nodes := by
  by_cases hemp : g.nodes.isEmpty = true
  · have hgg : sanitize_template_graph g = g := by
      simp only [sanitize_template_graph]
      rw [if_pos hemp]
    rw [hgg]
    exact h
  · rw [sanitize_template_graph_akeys g hemp]
    simp only [sanitize_dedup]
    split
    · exact h
    · refine fold_aremove_mem "start" _ ?_ _ ?_
      · intro hmem
        exact dedup_redirect_no_entry g "start" hmem (Or.inl rfl)
      · rw [fold_transfer_akeys, akeys_map_fst _ (by intro kn; rfl)]
        exact h

theorem c9_witness :
    ("start" ∈ akeys c9Graph.nodes) ∧
    "start" ∈ akeys (sanitize_template_graph c9Graph).nodes :=
  ⟨by decide, c9_amended c9Graph (by decide)⟩

theorem refRepairChoice_closure (nk ek : List String) (fb : String)
    (hfb : fb ∈ ek ∨ rustTrim fb = "END") (c0 c : Choice)
    (heqc : c = (if rustTrim c0.next_node_id = "" then { c0 with next_node_id := fb }
      else if rustTrim c0.next_node_id = "END" then c0
      else if nk.contains (rustTrim c0.next_node_id) then c0
      else if ek.contains (rustTrim c0.next_node_id) then c0
      else { c0 with next_node_id := fb })) :
    c.next_node_id ∈ ek ∨ rustTrim c.next_node_id = "END" ∨
      rustTrim c.next_node_id ∈ nk ∨ rustTrim c.next_node_id ∈ ek := by
  subst heqc
  split
  next h1 =>
    rcases hfb with hfb | hfb
    · exact Or.inl hfb
    · exact Or.inr (Or.inl hfb)
  next h1 =>
    split
    next h2 => exact Or.inr (Or.inl h2)
    next h2 =>
      split
      next h3 => exact Or.inr (Or.inr (Or.inl (by simpa using h3)))
      next h3 =>
        split
        next h4 => exact Or.inr (Or.inr (Or.inr (by simpa using h4)))
        next h4 =>
          rcases hfb with hfb | hfb
          · exact Or.inl hfb
          · exact Or.inr (Or.inl hfb)

theorem sanitize_ref_repair_closure (t : MovieTemplate) (nk ek : List String) (fb : String)
    (hfb : fb ∈ ek ∨ rustTrim fb = "END") :
    ∀ kn ∈ (sanitize_ref_repair t nk ek fb).nodes, ∀ c ∈ kn.2.choices,
      c.next_node_id ∈ ek ∨ rustTrim c.next_node_id = "END" ∨
      rustTrim c.next_node_id ∈ nk ∨ rustTrim c.next_node_id ∈ ek := by
  intro kn hkn c hc
  obtain ⟨kn0, hkn0, heq⟩ := List.mem_map.mp hkn
  rw [← heq] at hc
  obtain ⟨c0, hc0, heqc⟩ := List.mem_map.mp hc
  exact refRepairChoice_closure nk ek fb hfb c0 c heqc.symm

theorem sanitize_clear_terminal_choices (t : MovieTemplate) (ek : List String)
    (Q : Choice → Prop) (h : ∀ kn ∈ t.nodes, ∀ c ∈ kn.2.choices, Q c) :
    ∀ kn ∈ (sanitize_clear_terminal t ek).nodes, ∀ c ∈ kn.2.choices, Q c := by
  intro kn hkn c hc
  obtain ⟨kn0, hkn0, heq⟩ := List.mem_map.mp hkn
  rw [← heq] at hc
  revert hc
  show c ∈ (match kn0.2.ending_key with
    | some ek0 => if ek.contains ek0 then { kn0.2 with choices := [] } else kn0.2
    | none => kn0.2).choices → Q c
  cases hek : kn0.2.ending_key with
  | none => exact fun hc => h kn0 hkn0 c hc
  | some ek0 =>
    show c ∈ (if ek.contains ek0 then { kn0.2 with choices := [] } else kn0.2).choices → Q c
    split
    · exact fun hc => absurd hc (List.not_mem_nil c)
    · exact fun hc => h kn0 hkn0 c hc

theorem sanitize_fill_marker_choices (t : MovieTemplate) (ek : List String) (enk : String)
    (Q : Choice → Prop) (h : ∀ kn ∈ t.nodes, ∀ c ∈ kn.2.choices, Q c) :
    ∀ kn ∈ (sanitize_fill_marker t ek enk).nodes, ∀ c ∈ kn.2.choices, Q c := by
  intro kn hkn c hc
  obtain ⟨kn0, hkn0, heq⟩ := List.mem_map.mp hkn
  rw [← heq] at hc
  refine h kn0 hkn0 c ?_
  revert hc
  show c ∈ ((if kn0.2.choices.isEmpty = true then
      (if (match kn0.2.ending_key with
        | some k => ek.contains k
        | none => false) = true then kn0.2
       else if ek.contains enk then { kn0.2 with ending_key := some enk } else kn0.2)
    else kn0.2) : StoryNode).choices → c ∈ kn0.2.choices
  split
  · split
    · exact id
    · split
      · exact id
      · exact id
  · exact id

theorem ending_fallback_ok (t2 : MovieTemplate) (enk : String) :
    (if (akeys t2.endings).contains enk then enk
     else match t2.endings with | [] => "END" | e :: _ => e.1) ∈ akeys t2.endings ∨
    rustTrim (if (akeys t2.endings).contains enk then enk
     else match t2.endings with | [] => "END" | e :: _ => e.1) = "END" := by
  by_cases hc : (akeys t2.endings).contains enk = true
  · left
    rw [if_pos hc]
    simpa using hc
  · rw [if_neg hc]
    cases hend : t2.endings with
    | nil =>
      right
      show rustTrim ("END") = "END"
      decide
    | cons e rest =>
      left
      show e.1 ∈ akeys (e :: rest)
      rw [akeys_cons]
      exact List.mem_cons_self _ _

theorem stg_passCDE_closure (t2 : MovieTemplate) (enk : String) :
    ∀ kn ∈ (sanitize_fill_marker (sanitize_clear_terminal (sanitize_ref_repair t2
        (akeys t2.nodes) (akeys t2.endings)
        (if (akeys t2.endings).contains enk then enk
         else match t2.endings with | [] => "END" | e :: _ => e.1))
        (akeys t2.endings)) (akeys t2.endings) enk).nodes,
      ∀ c ∈ kn.2.choices,
        c.next_node_id ∈ akeys t2.endings ∨ rustTrim c.next_node_id = "END" ∨
        rustTrim c.next_node_id ∈ akeys t2.nodes ∨ rustTrim c.next_node_id ∈ akeys t2.endings := by
  refine sanitize_fill_marker_choices _ _ _ _ ?_
  refine sanitize_clear_terminal_choices _ _ _ ?_
  exact sanitize_ref_repair_closure t2 _ _ _ (ending_fallback_ok t2 enk)

/-- **C2** (corrected). Validity of a surviving target is judged on the
*trimmed* target, and the surviving target may keep its original untrimmed
spelling; moreover a pre-existing literal `"END"` target is always kept, even
when the endings map is non-empty (see `c2_counterexample`). What holds: every
surviving target is, after trimming, an existing node key, an existing ending
key, or `"END"` — or is (untrimmed) an existing ending key written by the
fallback rewrite. -/
theorem c2_amended (g : MovieTemplate) :
    ∀ kn ∈ (sanitize_template_graph g).nodes, ∀ c ∈ kn.2.choices,
      c.next_node_id ∈ akeys (sanitize_template_graph g).endings ∨
      rustTrim c.next_node_id = "END" ∨
      rustTrim c.next_node_id ∈ akeys (sanitize_template_graph g).nodes ∨
      rustTrim c.next_node_id ∈ akeys (sanitize_template_graph g).endings := by
  by_cases hemp : g.nodes.isEmpty = true
  · have hgg : sanitize_template_graph g = g := by
      simp only [sanitize_template_graph]
      rw [if_pos hemp]
    rw [hgg, List.isEmpty_iff.mp hemp]
    intro kn hkn
    cases hkn
  · have hunfold : sanitize_template_graph g =
        sanitize_fill_marker (sanitize_clear_terminal (sanitize_ref_repair
          (sanitize_cycle_break (sanitize_dedup g) (ending_neutral_key g))
          (akeys (sanitize_cycle_break (sanitize_dedup g) (ending_neutral_key g)).nodes)
          (akeys (sanitize_cycle_break (sanitize_dedup g) (ending_neutral_key g)).endings)
          (if (akeys (sanitize_cycle_break (sanitize_dedup g)
                (ending_neutral_key g)).endings).contains (ending_neutral_key g) then
              ending_neutral_key g
           else match (sanitize_cycle_break (sanitize_dedup g)
                (ending_neutral_key g)).endings with
             | [] => "END"
             | e :: _ => e.1))
          (akeys (sanitize_cycle_break (sanitize_dedup g) (ending_neutral_key g)).endings))
        (akeys (sanitize_cycle_break (sanitize_dedup g) (ending_neutral_key g)).endings)
        (ending_neutral_key g) := by
      simp only [sanitize_template_graph]
      rw [if_neg hemp]
    rw [hunfold]
    intro kn hkn c hc
    have hres := stg_passCDE_closure (sanitize_cycle_break (sanitize_dedup g)
      (ending_neutral_key g)) (ending_neutral_key g) kn hkn c hc
    rw [sanitize_fill_marker_akeys, sanitize_clear_terminal_akeys, sanitize_ref_repair_akeys]
    exact hres

theorem c2_witness :
    (("start", mkNode ("start") ("X") [mkChoice ("c") ("ending_good")]) ∈
        (sanitize_template_graph c9Graph).nodes) ∧
    ((mkChoice ("c") ("ending_good")).next_node_id ∈
        akeys (sanitize_template_graph c9Graph).endings ∨
      rustTrim (mkChoice ("c") ("ending_good")).next_node_id = "END" ∨
      rustTrim (mkChoice ("c") ("ending_good")).next_node_id ∈
        akeys (sanitize_template_graph c9Graph).nodes ∨
      rustTrim (mkChoice ("c") ("ending_good")).next_node_id ∈
        akeys (sanitize_template_graph c9Graph).endings) :=
  ⟨by decide,
    c2_amended c9Graph ("start", mkNode ("start") ("X") [mkChoice ("c") ("ending_good")])
      (by decide) (mkChoice ("c") ("ending_good")) (by decide)⟩

theorem stateOf_ainsert_self (st : SMap Nat) (k : String) (v : Nat) :
    stateOf (ainsert st k v) k = v := by
  unfold stateOf
  rw [alookup_ainsert_self]
  rfl

theorem stateOf_ainsert_ne (st : SMap Nat) {k k' : String} (v : Nat) (h : k ≠ k') :
    stateOf (ainsert st k v) k' = stateOf st k' := by
  unfold stateOf
  rw [alookup_ainsert_ne st v h]

theorem stateOf_nil (k : String) : stateOf ([] : SMap Nat) k = 0 := rfl

theorem alookup_rewriteNodeChoices_ne (t : MovieTemplate) (cur target fb k : String)
    (h : k ≠ cur) :
    alookup (rewriteNodeChoices t cur target fb).nodes k = alookup t.nodes k := by
  unfold rewriteNodeChoices
  rw [alookup_map_fst _ (by intro kn; by_cases hc : kn.1 = cur <;> simp [hc])]
  cases hl : alookup t.nodes k with
  | none => rfl
  | some n =>
    rw [Option.map_some']
    show some (if k = cur then _ else (k, n)).2 = some n
    rw [if_neg h]

theorem alookup_rewriteNodeChoices_self (t : MovieTemplate) (cur target fb : String) :
    alookup (rewriteNodeChoices t cur target fb).nodes cur =
      (alookup t.nodes cur).map (fun n => { n with choices := n.choices.map (fun c =>
        if c.next_node_id = target then { c with next_node_id := fb } else c) }) := by
  unfold rewriteNodeChoices
  rw [alookup_map_fst _ (by intro kn; by_cases hc : kn.1 = cur <;> simp [hc])]
  cases hl : alookup t.nodes cur with
  | none => rfl
  | some n =>
    rw [Option.map_some', Option.map_some']
    show some (if cur = cur then ((cur : String), { n with choices := n.choices.map (fun c =>
      if c.next_node_id = target then { c with next_node_id := fb } else c) }) else (cur, n)).2 = _
    rw [if_pos rfl]

theorem whiteCount_rewrite (t : MovieTemplate) (st : SMap Nat) (cur target fb : String) :
    whiteCount (rewriteNodeChoices t cur target fb) st = whiteCount t st := by
  unfold whiteCount
  rw [(rewriteNodeChoices_fields t cur target fb).2.2]

theorem whiteCount_mono (tA tB : MovieTemplate) (stA stB : SMap Nat)
    (hk : akeys tB.nodes = akeys tA.nodes)
    (hw : ∀ k, stateOf stB k = 0 → stateOf stA k = 0) :
    whiteCount tB stB ≤ whiteCount tA stA := by
  unfold whiteCount
  rw [hk]
  refine List.countP_mono_left ?_
  intro k _ hpk
  simpa using hw k (by simpa using hpk)

theorem countP_lt_of_witness {α : Type} (p q : α → Bool) :
    ∀ l : List α, (∀ a ∈ l, p a = true → q a = true) → ∀ a0 : α, a0 ∈ l →
    ¬ p a0 = true → q a0 = true → l.countP p < l.countP q := by
  intro l
  induction l with
  | nil => intro _ a0 ha0; cases ha0
  | cons x xs ih =>
    intro hpq a0 ha0 hp hq
    rw [List.countP_cons, List.countP_cons]
    rcases List.mem_cons.mp ha0 with rfl | hmem
    · rw [if_neg hp, if_pos hq]
      have hmono : xs.countP p ≤ xs.countP q :=
        List.countP_mono_left (fun a ha => hpq a (List.mem_cons_of_mem _ ha))
      omega
    · have hlt := ih (fun a ha => hpq a (List.mem_cons_of_mem _ ha)) a0 hmem hp hq
      have hx : (if p x = true then 1 else 0) ≤ (if q x = true then 1 else 0) := by
        by_cases hpx : p x = true
        · rw [if_pos hpx, if_pos (hpq x (List.mem_cons_self _ _) hpx)]
        · rw [if_neg hpx]
          split <;> omega
      omega

theorem whiteCount_mark (t : MovieTemplate) (st : SMap Nat) (cur : String)
    (hmem : cur ∈ akeys t.nodes) (h0 : stateOf st cur = 0) :
    whiteCount t (ainsert st cur 1) < whiteCount t st := by
  unfold whiteCount
  refine countP_lt_of_witness _ _ _ ?_ cur hmem ?_ ?_
  · intro k _ hk
    by_cases hkc : k = cur
    · subst hkc
      simp [stateOf_ainsert_self] at hk
    · rwa [stateOf_ainsert_ne st 1 (fun h => hkc h.symm)] at hk
  · simp [stateOf_ainsert_self]
  · simp [h0]

theorem whiteCount_le_len (t : MovieTemplate) (st : SMap Nat) :
    whiteCount t st ≤ t.nodes.length := by
  unfold whiteCount
  calc (akeys t.nodes).countP _ ≤ (akeys t.nodes).length := List.countP_le_length _
    _ = t.nodes.length := List.length_map _ _

theorem nodup_append_singleton {α : Type} (l : List α) (x : α) (h : l.Nodup) (hx : x ∉ l) :
    (l ++ [x]).Nodup := by
  rw [List.nodup_append]
  refine ⟨h, List.nodup_singleton x, ?_⟩
  intro a ha hmem
  rw [List.mem_singleton] at hmem
  subst hmem
  exact hx ha

theorem dfsInv_rewrite (t : MovieTemplate) (st : SMap Nat) (done : List String)
    (cur target fb : String) (h : dfsInv t st done) (hcur : cur ∉ done) :
    dfsInv (rewriteNodeChoices t cur target fb) st done := by
  obtain ⟨ha, hb, hle, hc⟩ := h
  refine ⟨ha, hb, hle, ?_⟩
  intro u hu n hn c hcn hmem
  have hne : u ≠ cur := fun he => hcur (he ▸ hu)
  rw [alookup_rewriteNodeChoices_ne t cur target fb u hne] at hn
  rw [(rewriteNodeChoices_fields t cur target fb).2.2] at hmem
  exact hc u hu n hn c hcn hmem

theorem dfsInv_mark (t : MovieTemplate) (st : SMap Nat) (done : List String)
    (cur : String) (h : dfsInv t st done) (hcur : stateOf st cur = 0) :
    dfsInv t (ainsert st cur 1) done := by
  obtain ⟨ha, hb, hle, hc⟩ := h
  refine ⟨?_, hb, ?_, hc⟩
  · intro k
    by_cases hk : cur = k
    · subst hk
      rw [stateOf_ainsert_self]
      constructor
      · intro h12; cases h12
      · intro hmem
        exact absurd ((ha cur).mpr hmem) (by rw [hcur]; decide)
    · rw [stateOf_ainsert_ne st 1 hk]
      exact ha k
  · intro k
    by_cases hk : cur = k
    · subst hk
      rw [stateOf_ainsert_self]
      omega
    · rw [stateOf_ainsert_ne st 1 hk]
      exact hle k

theorem ending_neutral_key_cases (t : MovieTemplate) :
    ending_neutral_key t ∈ akeys t.endings ∨ ending_neutral_key t = "END" := by
  unfold ending_neutral_key
  by_cases h1 : acontains t.endings ("ending_neutral") = true
  · rw [if_pos h1]
    exact Or.inl ((acontains_iff _ _).mp h1)
  · rw [if_neg h1]
    by_cases h2 : acontains t.endings ("ending_bad") = true
    · rw [if_pos h2]
      exact Or.inl ((acontains_iff _ _).mp h2)
    · rw [if_neg h2]
      by_cases h3 : acontains t.endings ("ending_good") = true
      · rw [if_pos h3]
        exact Or.inl ((acontains_iff _ _).mp h3)
      · rw [if_neg h3]
        exact Or.inr rfl

theorem dfs_assemble (t : MovieTemplate) (st : SMap Nat) (fb cur : String)
    (done d' : List String) (R : MovieTemplate × SMap Nat)
    (hcur0 : stateOf st cur = 0)
    (hfb : fb ∉ akeys t.nodes)
    (hIF : dfsInv R.1 R.2 (done ++ d'))
    (hgF : stateOf R.2 cur = 1)
    (hkF : akeys R.1.nodes = akeys t.nodes)
    (hlF : ∀ k, stateOf (ainsert st cur 1) k ≠ 0 → k ≠ cur →
      alookup R.1.nodes k = alookup t.nodes k)
    (hiffF : ∀ k, stateOf R.2 k = 1 ↔ stateOf (ainsert st cur 1) k = 1)
    (hwhF : ∀ k, stateOf R.2 k = 0 → stateOf (ainsert st cur 1) k = 0)
    (htF : ∀ n, alookup R.1.nodes cur = some n → ∀ c ∈ n.choices,
      c.next_node_id ∉ akeys t.nodes ∨ stateOf R.2 c.next_node_id = 2 ∨ c.next_node_id = fb) :
    dfsInv R.1 (ainsert R.2 cur 2) (done ++ (d' ++ [cur])) ∧
    cur ∈ d' ++ [cur] ∧
    akeys R.1.nodes = akeys t.nodes ∧
    (∀ k, stateOf st k ≠ 0 → alookup R.1.nodes k = alookup t.nodes k) ∧
    (∀ k, stateOf (ainsert R.2 cur 2) k = 1 ↔ stateOf st k = 1) ∧
    (∀ k, stateOf (ainsert R.2 cur 2) k = 0 → stateOf st k = 0) := by
  have hcurd : cur ∉ done ++ d' := by
    intro hmem
    have h2 := (hIF.1 cur).mpr hmem
    omega
  refine ⟨⟨?_, ?_, ?_, ?_⟩, ?_, hkF, ?_, ?_, ?_⟩
  · intro k
    rw [← List.append_assoc]
    by_cases hk : cur = k
    · subst hk
      rw [stateOf_ainsert_self]
      constructor
      · intro _
        exact List.mem_append_right _ (List.mem_singleton.mpr rfl)
      · intro _
        rfl
    · rw [stateOf_ainsert_ne R.2 2 hk]
      constructor
      · intro h2
        exact List.mem_append_left _ ((hIF.1 k).mp h2)
      · intro hmem
        rcases List.mem_append.mp hmem with h' | h'
        · exact (hIF.1 k).mpr h'
        · exact absurd (List.mem_singleton.mp h') (fun he => hk he.symm)
  · rw [← List.append_assoc]
    exact nodup_append_singleton _ _ hIF.2.1 hcurd
  · intro k
    by_cases hk : cur = k
    · subst hk
      rw [stateOf_ainsert_self]
    · rw [stateOf_ainsert_ne R.2 2 hk]
      exact hIF.2.2.1 k
  · intro u hu n hn c hc hmem
    rw [← List.append_assoc] at hu ⊢
    rcases List.mem_append.mp hu with hu' | hu'
    · obtain ⟨hm, hidx⟩ := hIF.2.2.2 u hu' n hn c hc hmem
      exact ⟨List.mem_append_left _ hm, by
        rw [List.indexOf_append_of_mem hm, List.indexOf_append_of_mem hu']
        exact hidx⟩
    · have hu'' := List.mem_singleton.mp hu'
      subst hu''
      have hmem' : c.next_node_id ∈ akeys t.nodes := by
        rw [← hkF]
        exact hmem
      rcases htF n hn c hc with h | h | h
      · exact absurd hmem' h
      · have hmm : c.next_node_id ∈ done ++ d' := (hIF.1 _).mp h
        refine ⟨List.mem_append_left _ hmm, ?_⟩
        rw [List.indexOf_append_of_mem hmm, List.indexOf_append_of_not_mem hcurd,
          List.indexOf_cons_self]
        have hlt := List.indexOf_lt_length.mpr hmm
        omega
      · rw [h] at hmem'
        exact absurd hmem' hfb
  · exact List.mem_append_right _ (List.mem_singleton.mpr rfl)
  · intro k h0
    have hkc : k ≠ cur := fun he => h0 (by rw [he]; exact hcur0)
    have h0' : stateOf (ainsert st cur 1) k ≠ 0 := by
      rw [stateOf_ainsert_ne st 1 (fun hh => hkc hh.symm)]
      exact h0
    exact hlF k h0' hkc
  · intro k
    by_cases hk : cur = k
    · subst hk
      rw [stateOf_ainsert_self]
      constructor <;> intro hx <;> omega
    · rw [stateOf_ainsert_ne R.2 2 hk]
      have := hiffF k
      rwa [stateOf_ainsert_ne st 1 hk] at this
  · intro k hz
    by_cases hk : cur = k
    · subst hk
      rw [stateOf_ainsert_self] at hz
      omega
    · rw [stateOf_ainsert_ne R.2 2 hk] at hz
      have := hwhF k hz
      rwa [stateOf_ainsert_ne st 1 hk] at this

theorem dfs_fold_spec (fuel : Nat) (fb cur : String) (tK : List String)
    (IH : dfsSpec fuel) (hfb : fb ∉ tK) :
    ∀ outs : List String, ∀ (acc res : MovieTemplate × SMap Nat) (dacc : List String),
      res = outs.foldl (fun (acc : MovieTemplate × SMap Nat) next =>
        if next = cur then (rewriteNodeChoices acc.1 cur cur fb, acc.2)
        else if acontains acc.1.nodes next then
          if stateOf acc.2 next = 1 then (rewriteNodeChoices acc.1 cur next fb, acc.2)
          else if stateOf acc.2 next = 0 then sanitize_dfs fuel next acc.1 acc.2 fb
          else acc
        else acc) acc →
      dfsInv acc.1 acc.2 dacc →
      stateOf acc.2 cur = 1 →
      akeys acc.1.nodes = tK →
      whiteCount acc.1 acc.2 < fuel →
      (∀ n, alookup acc.1.nodes cur = some n → ∀ c ∈ n.choices,
        c.next_node_id ∉ tK ∨ stateOf acc.2 c.next_node_id = 2 ∨ c.next_node_id = fb ∨
        c.next_node_id ∈ outs) →
      ∃ d' : List String,
        dfsInv res.1 res.2 (dacc ++ d') ∧
        stateOf res.2 cur = 1 ∧
        akeys res.1.nodes = tK ∧
        whiteCount res.1 res.2 ≤ whiteCount acc.1 acc.2 ∧
        (∀ k, stateOf acc.2 k ≠ 0 → k ≠ cur →
          alookup res.1.nodes k = alookup acc.1.nodes k) ∧
        (∀ k, stateOf res.2 k = 1 ↔ stateOf acc.2 k = 1) ∧
        (∀ k, stateOf res.2 k = 0 → stateOf acc.2 k = 0) ∧
        (∀ n, alookup res.1.nodes cur = some n → ∀ c ∈ n.choices,
          c.next_node_id ∉ tK ∨ stateOf res.2 c.next_node_id = 2 ∨ c.next_node_id = fb) := by
  intro outs
  induction outs with
  | nil =>
    intro acc res dacc hres hInv hgray hkeys hwc htgt
    subst hres
    refine ⟨[], ?_, hgray, hkeys, le_refl _, ?_, ?_, ?_, ?_⟩
    · rw [List.append_nil]
      exact hInv
    · intro k _ _
      rfl
    · intro k
      exact Iff.rfl
    · intro k h
      exact h
    · intro n hn c hc
      rcases htgt n hn c hc with h | h | h | h
      · exact Or.inl h
      · exact Or.inr (Or.inl h)
      · exact Or.inr (Or.inr h)
      · cases h
  | cons next rest ih =>
    intro acc res dacc hres hInv hgray hkeys hwc htgt
    simp only [List.foldl_cons] at hres
    have hcurd : cur ∉ dacc := by
      intro hmem
      have h2 := (hInv.1 cur).mpr hmem
      omega
    by_cases h1 : next = cur
    · rw [if_pos h1] at hres
      have htgt1 : ∀ n, alookup (rewriteNodeChoices acc.1 cur cur fb).nodes cur = some n →
          ∀ c ∈ n.choices,
          c.next_node_id ∉ tK ∨ stateOf acc.2 c.next_node_id = 2 ∨ c.next_node_id = fb ∨
          c.next_node_id ∈ rest := by
        intro n hn c hc
        rw [alookup_rewriteNodeChoices_self] at hn
        cases hl0 : alookup acc.1.nodes cur with
        | none =>
          rw [hl0] at hn
          cases hn
        | some n0 =>
          rw [hl0, Option.map_some'] at hn
          injection hn with hn
          subst hn
          obtain ⟨c0, hc0, heqc⟩ := List.mem_map.mp hc
          by_cases ht0 : c0.next_node_id = cur
          · right; right; left
            rw [← heqc]
            show (if c0.next_node_id = cur then ({ c0 with next_node_id := fb } : Choice)
              else c0).next_node_id = fb
            rw [if_pos ht0]
          · have hceq : c = c0 := by
              rw [← heqc]
              show (if c0.next_node_id = cur then ({ c0 with next_node_id := fb } : Choice)
                else c0) = c0
              rw [if_neg ht0]
            rw [hceq]
            rcases htgt n0 hl0 c0 hc0 with h | h | h | h
            · exact Or.inl h
            · exact Or.inr (Or.inl h)
            · exact Or.inr (Or.inr (Or.inl h))
            · rcases List.mem_cons.mp h with h' | h'
              · rw [h1] at h'
                exact absurd h' ht0
              · exact Or.inr (Or.inr (Or.inr h'))
      obtain ⟨d', hI, hg, hk, hw, hl, hiff, hwh, ht⟩ :=
        ih (rewriteNodeChoices acc.1 cur cur fb, acc.2) res dacc hres
          (dfsInv_rewrite acc.1 acc.2 dacc cur cur fb hInv hcurd)
          hgray ((rewriteNodeChoices_fields acc.1 cur cur fb).2.2.trans hkeys)
          (by rw [whiteCount_rewrite]; exact hwc) htgt1
      refine ⟨d', hI, hg, hk, ?_, ?_, hiff, hwh, ht⟩
      · exact hw.trans (le_of_eq (whiteCount_rewrite acc.1 acc.2 cur cur fb))
      · intro k h0 hkc
        exact (hl k h0 hkc).trans (alookup_rewriteNodeChoices_ne acc.1 cur cur fb k hkc)
    · rw [if_neg h1] at hres
      by_cases h2 : acontains acc.1.nodes next = true
      · rw [if_pos h2] at hres
        by_cases h3 : stateOf acc.2 next = 1
        · rw [if_pos h3] at hres
          have htgt1 : ∀ n,
              alookup (rewriteNodeChoices acc.1 cur next fb).nodes cur = some n →
              ∀ c ∈ n.choices,
              c.next_node_id ∉ tK ∨ stateOf acc.2 c.next_node_id = 2 ∨ c.next_node_id = fb ∨
              c.next_node_id ∈ rest := by
            intro n hn c hc
            rw [alookup_rewriteNodeChoices_self] at hn
            cases hl0 : alookup acc.1.nodes cur with
            | none =>
              rw [hl0] at hn
              cases hn
            | some n0 =>
              rw [hl0, Option.map_some'] at hn
              injection hn with hn
              subst hn
              obtain ⟨c0, hc0, heqc⟩ := List.mem_map.mp hc
              by_cases ht0 : c0.next_node_id = next
              · right; right; left
                rw [← heqc]
                show (if c0.next_node_id = next then ({ c0 with next_node_id := fb } : Choice)
                  else c0).next_node_id = fb
                rw [if_pos ht0]
              · have hceq : c = c0 := by
                  rw [← heqc]
                  show (if c0.next_node_id = next then ({ c0 with next_node_id := fb } : Choice)
                    else c0) = c0
                  rw [if_neg ht0]
                rw [hceq]
                rcases htgt n0 hl0 c0 hc0 with h | h | h | h
                · exact Or.inl h
                · exact Or.inr (Or.inl h)
                · exact Or.inr (Or.inr (Or.inl h))
                · rcases List.mem_cons.mp h with h' | h'
                  · exact absurd h' ht0
                  · exact Or.inr (Or.inr (Or.inr h'))
          obtain ⟨d', hI, hg, hk, hw, hl, hiff, hwh, ht⟩ :=
            ih (rewriteNodeChoices acc.1 cur next fb, acc.2) res dacc hres
              (dfsInv_rewrite acc.1 acc.2 dacc cur next fb hInv hcurd)
              hgray ((rewriteNodeChoices_fields acc.1 cur next fb).2.2.trans hkeys)
              (by rw [whiteCount_rewrite]; exact hwc) htgt1
          refine ⟨d', hI, hg, hk, ?_, ?_, hiff, hwh, ht⟩
          · exact hw.trans (le_of_eq (whiteCount_rewrite acc.1 acc.2 cur next fb))
          · intro k h0 hkc
            exact (hl k h0 hkc).trans (alookup_rewriteNodeChoices_ne acc.1 cur next fb k hkc)
        · rw [if_neg h3] at hres
          by_cases h4 : stateOf acc.2 next = 0
          · rw [if_pos h4] at hres
            have hnextmem : next ∈ akeys acc.1.nodes := (acontains_iff _ _).mp h2
            have hfb' : fb ∉ akeys acc.1.nodes := by
              rw [hkeys]
              exact hfb
            obtain ⟨done₁, hInv₁, hnext₁, hkeys₁, hlook₁, hgray₁, hwhite₁⟩ :=
              IH fb next acc.1 acc.2 dacc hInv hwc h4 hnextmem hfb'
            have hgray1 : stateOf (sanitize_dfs fuel next acc.1 acc.2 fb).2 cur = 1 :=
              (hgray₁ cur).mpr hgray
            have hkeys1 : akeys (sanitize_dfs fuel next acc.1 acc.2 fb).1.nodes = tK :=
              hkeys₁.trans hkeys
            have hwcmono : whiteCount (sanitize_dfs fuel next acc.1 acc.2 fb).1
                (sanitize_dfs fuel next acc.1 acc.2 fb).2 ≤ whiteCount acc.1 acc.2 :=
              whiteCount_mono acc.1 _ acc.2 _ hkeys₁ hwhite₁
            have htgt1 : ∀ n,
                alookup (sanitize_dfs fuel next acc.1 acc.2 fb).1.nodes cur = some n →
                ∀ c ∈ n.choices,
                c.next_node_id ∉ tK ∨
                stateOf (sanitize_dfs fuel next acc.1 acc.2 fb).2 c.next_node_id = 2 ∨
                c.next_node_id = fb ∨ c.next_node_id ∈ rest := by
              intro n hn c hc
              rw [hlook₁ cur (by omega)] at hn
              rcases htgt n hn c hc with h | h | h | h
              · exact Or.inl h
              · exact Or.inr (Or.inl ((hInv₁.1 _).mpr
                  (List.mem_append_left _ ((hInv.1 _).mp h))))
              · exact Or.inr (Or.inr (Or.inl h))
              · rcases List.mem_cons.mp h with h' | h'
                · right; left
                  rw [h']
                  exact (hInv₁.1 next).mpr (List.mem_append_right _ hnext₁)
                · exact Or.inr (Or.inr (Or.inr h'))
            obtain ⟨d₂, hI, hg, hk, hw, hl, hiff, hwh, ht⟩ :=
              ih (sanitize_dfs fuel next acc.1 acc.2 fb) res (dacc ++ done₁) hres
                hInv₁ hgray1 hkeys1 (lt_of_le_of_lt hwcmono hwc) htgt1
            refine ⟨done₁ ++ d₂, ?_, hg, hk, ?_, ?_, ?_, ?_, ht⟩
            · rw [← List.append_assoc]
              exact hI
            · exact hw.trans hwcmono
            · intro k h0 hkc
              have h0' : stateOf (sanitize_dfs fuel next acc.1 acc.2 fb).2 k ≠ 0 :=
                fun hz => h0 (hwhite₁ k hz)
              exact (hl k h0' hkc).trans (hlook₁ k h0)
            · intro k
              exact (hiff k).trans (hgray₁ k)
            · intro k hz
              exact hwhite₁ k (hwh k hz)
          · rw [if_neg h4] at hres
            have htgt1 : ∀ n, alookup acc.1.nodes cur = some n → ∀ c ∈ n.choices,
                c.next_node_id ∉ tK ∨ stateOf acc.2 c.next_node_id = 2 ∨
                c.next_node_id = fb ∨ c.next_node_id ∈ rest := by
              intro n hn c hc
              rcases htgt n hn c hc with h | h | h | h
              · exact Or.inl h
              · exact Or.inr (Or.inl h)
              · exact Or.inr (Or.inr (Or.inl h))
              · rcases List.mem_cons.mp h with h' | h'
                · right; left
                  rw [h']
                  have hle := hInv.2.2.1 next
                  omega
                · exact Or.inr (Or.inr (Or.inr h'))
            exact ih acc res dacc hres hInv hgray hkeys hwc htgt1
      · rw [if_neg h2] at hres
        have hnmem : next ∉ tK := by
          rw [← hkeys]
          intro hm
          exact h2 ((acontains_iff _ _).mpr hm)
        have htgt1 : ∀ n, alookup acc.1.nodes cur = some n → ∀ c ∈ n.choices,
            c.next_node_id ∉ tK ∨ stateOf acc.2 c.next_node_id = 2 ∨
            c.next_node_id = fb ∨ c.next_node_id ∈ rest := by
          intro n hn c hc
          rcases htgt n hn c hc with h | h | h | h
          · exact Or.inl h
          · exact Or.inr (Or.inl h)
          · exact Or.inr (Or.inr (Or.inl h))
          · rcases List.mem_cons.mp h with h' | h'
            · left
              rw [h']
              exact hnmem
            · exact Or.inr (Or.inr (Or.inr h'))
        exact ih acc res dacc hres hInv hgray hkeys hwc htgt1

theorem sanitize_dfs_spec : ∀ fuel : Nat, dfsSpec fuel := by
  intro fuel
  induction fuel with
  | zero =>
    intro fb cur t st done _ hwc
    exact absurd hwc (Nat.not_lt_zero _)
  | succ fuel ih =>
    intro fb cur t st done hInv hwc hcur0 hcurmem hfb
    have hdfs : sanitize_dfs (fuel+1) cur t st fb =
        (((match alookup t.nodes cur with
            | some n => n.choices.map (fun c : Choice => c.next_node_id)
            | none => []).foldl (fun (acc : MovieTemplate × SMap Nat) next =>
              if next = cur then (rewriteNodeChoices acc.1 cur cur fb, acc.2)
              else if acontains acc.1.nodes next then
                if stateOf acc.2 next = 1 then (rewriteNodeChoices acc.1 cur next fb, acc.2)
                else if stateOf acc.2 next = 0 then sanitize_dfs fuel next acc.1 acc.2 fb
                else acc
              else acc) (t, ainsert st cur 1)).1,
         ainsert ((match alookup t.nodes cur with
            | some n => n.choices.map (fun c : Choice => c.next_node_id)
            | none => []).foldl (fun (acc : MovieTemplate × SMap Nat) next =>
              if next = cur then (rewriteNodeChoices acc.1 cur cur fb, acc.2)
              else if acontains acc.1.nodes next then
                if stateOf acc.2 next = 1 then (rewriteNodeChoices acc.1 cur next fb, acc.2)
                else if stateOf acc.2 next = 0 then sanitize_dfs fuel next acc.1 acc.2 fb
                else acc
              else acc) (t, ainsert st cur 1)).2 cur 2) := rfl
    have hwc1 : whiteCount t (ainsert st cur 1) < fuel := by
      have := whiteCount_mark t st cur hcurmem hcur0
      omega
    have htgt0 : ∀ n, alookup t.nodes cur = some n → ∀ c ∈ n.choices,
        c.next_node_id ∉ akeys t.nodes ∨ stateOf (ainsert st cur 1) c.next_node_id = 2 ∨
        c.next_node_id = fb ∨
        c.next_node_id ∈ (match alookup t.nodes cur with
          | some n => n.choices.map (fun c : Choice => c.next_node_id)
          | none => []) := by
      intro n hn c hc
      right; right; right
      rw [hn]
      show c.next_node_id ∈ n.choices.map (fun c : Choice => c.next_node_id)
      exact List.mem_map.mpr ⟨c, hc, rfl⟩
    obtain ⟨d', hIF, hgF, hkF, hwF, hlF, hiffF, hwhF, htF⟩ :=
      dfs_fold_spec fuel fb cur (akeys t.nodes) ih hfb
        (match alookup t.nodes cur with
          | some n => n.choices.map (fun c : Choice => c.next_node_id)
          | none => [])
        (t, ainsert st cur 1) _ done rfl
        (dfsInv_mark t st done cur hInv hcur0)
        (stateOf_ainsert_self st cur 1) rfl hwc1 htgt0
    rw [hdfs]
    exact ⟨d' ++ [cur],
      dfs_assemble t st fb cur done d' _ hcur0 hfb hIF hgF hkF hlF hiffF hwhF htF⟩

theorem cycle_break_fold_spec (t1 : MovieTemplate) (enk : String)
    (henk : enk ∉ akeys t1.nodes) :
    ∀ ids : List String, (∀ i ∈ ids, i ∈ akeys t1.nodes) →
    ∀ (acc : MovieTemplate × SMap Nat) (dacc : List String),
      dfsInv acc.1 acc.2 dacc →
      (∀ k, stateOf acc.2 k ≠ 1) →
      akeys acc.1.nodes = akeys t1.nodes →
      ∃ d' : List String,
        dfsInv (ids.foldl (dfsRootStep enk) acc).1 (ids.foldl (dfsRootStep enk) acc).2
          (dacc ++ d') ∧
        (∀ k, stateOf (ids.foldl (dfsRootStep enk) acc).2 k ≠ 1) ∧
        akeys (ids.foldl (dfsRootStep enk) acc).1.nodes = akeys t1.nodes ∧
        (∀ i ∈ ids, stateOf (ids.foldl (dfsRootStep enk) acc).2 i = 2) := by
  intro ids
  induction ids with
  | nil =>
    intro _ acc dacc hInv hgray hkeys
    refine ⟨[], ?_, hgray, hkeys, ?_⟩
    · rw [List.append_nil]
      exact hInv
    · intro i hi
      cases hi
  | cons i rest ih =>
    intro hids acc dacc hInv hgray hkeys
    rw [List.foldl_cons]
    show ∃ d', dfsInv (rest.foldl (dfsRootStep enk) (dfsRootStep enk acc i)).1
        (rest.foldl (dfsRootStep enk) (dfsRootStep enk acc i)).2 (dacc ++ d') ∧ _
    by_cases h0 : stateOf acc.2 i = 0
    · have hstep : dfsRootStep enk acc i =
          sanitize_dfs (acc.1.nodes.length + 1) i acc.1 acc.2 enk := by
        unfold dfsRootStep
        rw [if_pos h0]
      have hwc : whiteCount acc.1 acc.2 < acc.1.nodes.length + 1 := by
        have := whiteCount_le_len acc.1 acc.2
        omega
      have himem : i ∈ akeys acc.1.nodes := by
        rw [hkeys]
        exact hids i (List.mem_cons_self i rest)
      have henk' : enk ∉ akeys acc.1.nodes := by
        rw [hkeys]
        exact henk
      obtain ⟨done₁, hInv₁, hi₁, hkeys₁, _, hgray₁, _⟩ :=
        sanitize_dfs_spec (acc.1.nodes.length + 1) enk i acc.1 acc.2 dacc
          hInv hwc h0 himem henk'
      have hgray1 : ∀ k,
          stateOf (sanitize_dfs (acc.1.nodes.length + 1) i acc.1 acc.2 enk).2 k ≠ 1 :=
        fun k h => hgray k ((hgray₁ k).mp h)
      obtain ⟨d₂, hI, hg, hk, hall⟩ :=
        ih (fun j hj => hids j (List.mem_cons_of_mem i hj))
          (sanitize_dfs (acc.1.nodes.length + 1) i acc.1 acc.2 enk) (dacc ++ done₁)
          hInv₁ hgray1 (hkeys₁.trans hkeys)
      rw [hstep]
      refine ⟨done₁ ++ d₂, ?_, hg, hk, ?_⟩
      · rw [← List.append_assoc]
        exact hI
      · intro j hj
        rcases List.mem_cons.mp hj with rfl | hj'
        · exact (hI.1 j).mpr (List.mem_append_left _ (List.mem_append_right _ hi₁))
        · exact hall j hj'
    · have hstep : dfsRootStep enk acc i = acc := by
        unfold dfsRootStep
        rw [if_neg h0]
      have h2 : stateOf acc.2 i = 2 := by
        have hle := hInv.2.2.1 i
        have hg1 := hgray i
        omega
      obtain ⟨d₂, hI, hg, hk, hall⟩ :=
        ih (fun j hj => hids j (List.mem_cons_of_mem i hj)) acc dacc hInv hgray hkeys
      rw [hstep]
      refine ⟨d₂, hI, hg, hk, ?_⟩
      intro j hj
      rcases List.mem_cons.mp hj with rfl | hj'
      · exact (hI.1 j).mpr (List.mem_append_left _ ((hInv.1 j).mp h2))
      · exact hall j hj'

theorem cycle_break_edgeOrder (t1 : MovieTemplate) (enk : String)
    (henk : enk ∉ akeys t1.nodes) :
    ∃ doneF : List String, edgeOrder (sanitize_cycle_break t1 enk) doneF := by
  have hInv0 : dfsInv t1 ([] : SMap Nat) [] := by
    refine ⟨?_, List.nodup_nil, ?_, ?_⟩
    · intro k
      rw [stateOf_nil]
      constructor
      · intro h; cases h
      · intro h; cases h
    · intro k
      rw [stateOf_nil]
      omega
    · intro u hu
      cases hu
  obtain ⟨d', hI, _, hk, hall⟩ :=
    cycle_break_fold_spec t1 enk henk (promoteStart (sortStrings (akeys t1.nodes)))
      (fun i hi => mem_promoteStart_sort.mp hi) (t1, ([] : SMap Nat)) []
      hInv0 (fun k => by rw [stateOf_nil]; decide) rfl
  refine ⟨d', ?_, ?_⟩
  · intro k hkmem
    have hk2 : stateOf ((promoteStart (sortStrings (akeys t1.nodes))).foldl
        (dfsRootStep enk) (t1, ([] : SMap Nat))).2 k = 2 := by
      refine hall k (mem_promoteStart_sort.mpr ?_)
      show k ∈ akeys t1.nodes
      rw [← hk]
      exact hkmem
    have := (hI.1 k).mp hk2
    rwa [List.nil_append] at this
  · intro u hu n hn c hc hmem
    have hu' : u ∈ [] ++ d' := by
      rw [List.nil_append]
      exact hu
    obtain ⟨hm, hidx⟩ := hI.2.2.2 u hu' n hn c hc hmem
    rw [List.nil_append] at hm
    constructor
    · exact hm
    · have h1 : ([] ++ d' : List String) = d' := List.nil_append d'
      rw [h1] at hidx
      exact hidx

theorem edgeOrder_acyclic (t : MovieTemplate) (doneF : List String)
    (h : edgeOrder t doneF) :
    ∀ u, ¬ Relation.TransGen (hasChoiceEdge t) u u := by
  obtain ⟨hall, hord⟩ := h
  have hsrc : ∀ a b, Relation.TransGen (hasChoiceEdge t) a b → a ∈ akeys t.nodes := by
    intro a b hab
    induction hab with
    | single he =>
      obtain ⟨n, hn, _⟩ := he
      exact mem_akeys_of_lookup hn
    | tail _ _ ihab => exact ihab
  have hkey : ∀ a b, Relation.TransGen (hasChoiceEdge t) a b → b ∈ akeys t.nodes →
      doneF.indexOf b < doneF.indexOf a := by
    intro a b hab
    induction hab with
    | single he =>
      intro hbmem
      obtain ⟨n, hn, c, hc, hv⟩ := he
      have ha : _ ∈ akeys t.nodes := mem_akeys_of_lookup hn
      have h2 := hord a (hall a ha) n hn c hc (by rw [hv]; exact hbmem)
      rw [hv] at h2
      exact h2.2
    | tail hab hbc ihab =>
      intro hcmem
      obtain ⟨n, hn, c, hc, hv⟩ := hbc
      have hbmem : _ ∈ akeys t.nodes := mem_akeys_of_lookup hn
      have h2 := hord _ (hall _ hbmem) n hn c hc (by rw [hv]; exact hcmem)
      rw [hv] at h2
      exact lt_trans h2.2 (ihab hbmem)
  intro u hu
  exact absurd (hkey u u hu (hsrc u u hu)) (lt_irrefl _)

theorem refRepairChoice_target (nk ek : List String) (fb : String) (c0 c : Choice)
    (heqc : c = (if rustTrim c0.next_node_id = "" then { c0 with next_node_id := fb }
      else if rustTrim c0.next_node_id = "END" then c0
      else if nk.contains (rustTrim c0.next_node_id) then c0
      else if ek.contains (rustTrim c0.next_node_id) then c0
      else { c0 with next_node_id := fb })) :
    c.next_node_id = c0.next_node_id ∨ c.next_node_id = fb := by
  subst heqc
  split
  next => exact Or.inr rfl
  next =>
    split
    next => exact Or.inl rfl
    next =>
      split
      next => exact Or.inl rfl
      next =>
        split
        next => exact Or.inl rfl
        next => exact Or.inr rfl

theorem ref_repair_edgeOrder (t : MovieTemplate) (nk ek : List String) (fb : String)
    (hfb : fb ∉ akeys t.nodes) (doneF : List String) (h : edgeOrder t doneF) :
    edgeOrder (sanitize_ref_repair t nk ek fb) doneF := by
  obtain ⟨hall, hord⟩ := h
  constructor
  · intro k hk
    rw [sanitize_ref_repair_akeys] at hk
    exact hall k hk
  · intro u hu n hn c hc hmem
    rw [sanitize_ref_repair_akeys] at hmem
    have hn2 : alookup (t.nodes.map (fun kn => (kn.1, { kn.2 with
        choices := kn.2.choices.map (fun c =>
          if rustTrim c.next_node_id = "" then { c with next_node_id := fb }
          else if rustTrim c.next_node_id = "END" then c
          else if nk.contains (rustTrim c.next_node_id) then c
          else if ek.contains (rustTrim c.next_node_id) then c
          else { c with next_node_id := fb }) }))) u = some n := hn
    rw [alookup_map_fst _ (by intro kn; rfl)] at hn2
    cases hl0 : alookup t.nodes u with
    | none =>
      rw [hl0] at hn2
      cases hn2
    | some n0 =>
      rw [hl0, Option.map_some'] at hn2
      injection hn2 with hn2
      subst hn2
      obtain ⟨c0, hc0, heqc⟩ := List.mem_map.mp hc
      rcases refRepairChoice_target nk ek fb c0 c heqc.symm with hsame | hfb'
      · rw [hsame] at hmem ⊢
        exact hord u hu n0 hl0 c0 hc0 hmem
      · rw [hfb'] at hmem
        exact absurd hmem hfb

theorem clear_edgeOrder (t : MovieTemplate) (ek : List String) (doneF : List String)
    (h : edgeOrder t doneF) : edgeOrder (sanitize_clear_terminal t ek) doneF := by
  obtain ⟨hall, hord⟩ := h
  constructor
  · intro k hk
    rw [sanitize_clear_terminal_akeys] at hk
    exact hall k hk
  · intro u hu n hn c hc hmem
    rw [sanitize_clear_terminal_akeys] at hmem
    have hn2 : alookup (t.nodes.map (fun kn => (kn.1,
        match kn.2.ending_key with
        | some ek0 => if ek.contains ek0 then { kn.2 with choices := [] } else kn.2
        | none => kn.2))) u = some n := hn
    rw [alookup_map_fst _ (by intro kn; rfl)] at hn2
    cases hl0 : alookup t.nodes u with
    | none =>
      rw [hl0] at hn2
      cases hn2
    | some n0 =>
      rw [hl0, Option.map_some'] at hn2
      injection hn2 with hn2
      subst hn2
      revert hc
      show c ∈ (match n0.ending_key with
        | some ek0 => if ek.contains ek0 then { n0 with choices := [] } else n0
        | none => n0).choices → _
      cases hek : n0.ending_key with
      | none =>
        intro hc
        exact hord u hu n0 hl0 c hc hmem
      | some ek0 =>
        show c ∈ (if ek.contains ek0 then
          { n0 with ending_key := some ek0, choices := [] } else n0).choices → _
        split
        · intro hc
          exact absurd hc (List.not_mem_nil c)
        · intro hc
          exact hord u hu n0 hl0 c hc hmem

theorem fill_edgeOrder (t : MovieTemplate) (ek : List String) (enk : String)
    (doneF : List String) (h : edgeOrder t doneF) :
    edgeOrder (sanitize_fill_marker t ek enk) doneF := by
  obtain ⟨hall, hord⟩ := h
  constructor
  · intro k hk
    rw [sanitize_fill_marker_akeys] at hk
    exact hall k hk
  · intro u hu n hn c hc hmem
    rw [sanitize_fill_marker_akeys] at hmem
    have hn2 : alookup (t.nodes.map (fun kn => (kn.1,
        if kn.2.choices.isEmpty = true then
          (if (match kn.2.ending_key with
            | some k => ek.contains k
            | none => false) = true then kn.2
           else if ek.contains enk then { kn.2 with ending_key := some enk } else kn.2)
        else kn.2))) u = some n := hn
    rw [alookup_map_fst _ (by intro kn; rfl)] at hn2
    cases hl0 : alookup t.nodes u with
    | none =>
      rw [hl0] at hn2
      cases hn2
    | some n0 =>
      rw [hl0, Option.map_some'] at hn2
      injection hn2 with hn2
      have hch : n.choices = n0.choices := by
        rw [← hn2]
        split
        · split
          · rfl
          · split
            · rfl
            · rfl
        · rfl
      rw [hch] at hc
      exact hord u hu n0 hl0 c hc hmem

theorem ending_fallback_cases (t2 : MovieTemplate) (enk : String) :
    (if (akeys t2.endings).contains enk then enk
     else match t2.endings with | [] => "END" | e :: _ => e.1) ∈ akeys t2.endings ∨
    (if (akeys t2.endings).contains enk then enk
     else match t2.endings with | [] => "END" | e :: _ => e.1) = "END" := by
  by_cases hc : (akeys t2.endings).contains enk = true
  · left
    rw [if_pos hc]
    simpa using hc
  · rw [if_neg hc]
    cases hend : t2.endings with
    | nil =>
      right
      rfl
    | cons e rest =>
      left
      show e.1 ∈ akeys (e :: rest)
      rw [akeys_cons]
      exact List.mem_cons_self _ _

/-- **C1** (corrected). On inputs whose node keys collide with ending keys (or
with the sentinel `"END"`), the rewrite fallback of the depth-first search can
itself be a node key, so the sanitized graph may contain a self-loop — see
`c1_counterexample`. Under the spec's implicit assumption that node keys are
disjoint from ending keys and from `"END"`, the claim holds: after
`sanitize_template_graph` no sequence of choice-target traversals starting from
any node revisits that node. -/
theorem c1_amended (g : MovieTemplate)
    (H : ∀ k ∈ akeys g.nodes, k ∉ akeys g.endings ∧ k ≠ "END") :
    ∀ u, ¬ Relation.TransGen (hasChoiceEdge (sanitize_template_graph g)) u u := by
  by_cases hemp : g.nodes.isEmpty = true
  · have hgg : sanitize_template_graph g = g := by
      simp only [sanitize_template_graph]
      rw [if_pos hemp]
    rw [hgg]
    have hno : ∀ a b, ¬ Relation.TransGen (hasChoiceEdge g) a b := by
      intro a b h
      induction h with
      | single he =>
        obtain ⟨n, hn, _⟩ := he
        rw [List.isEmpty_iff.mp hemp] at hn
        exact Option.noConfusion hn
      | tail _ he _ =>
        obtain ⟨n, hn, _⟩ := he
        rw [List.isEmpty_iff.mp hemp] at hn
        exact Option.noConfusion hn
    exact fun u => hno u u
  · have hunfold : sanitize_template_graph g =
        sanitize_fill_marker (sanitize_clear_terminal (sanitize_ref_repair
          (sanitize_cycle_break (sanitize_dedup g) (ending_neutral_key g))
          (akeys (sanitize_cycle_break (sanitize_dedup g) (ending_neutral_key g)).nodes)
          (akeys (sanitize_cycle_break (sanitize_dedup g) (ending_neutral_key g)).endings)
          (if (akeys (sanitize_cycle_break (sanitize_dedup g)
                (ending_neutral_key g)).endings).contains (ending_neutral_key g) then
              ending_neutral_key g
           else match (sanitize_cycle_break (sanitize_dedup g)
                (ending_neutral_key g)).endings with
             | [] => "END"
             | e :: _ => e.1))
          (akeys (sanitize_cycle_break (sanitize_dedup g) (ending_neutral_key g)).endings))
        (akeys (sanitize_cycle_break (sanitize_dedup g) (ending_neutral_key g)).endings)
        (ending_neutral_key g) := by
      simp only [sanitize_template_graph]
      rw [if_neg hemp]
    have henk : ending_neutral_key g ∉ akeys (sanitize_dedup g).nodes := by
      intro hmem
      have hgmem := sanitize_dedup_akeys_sub g _ hmem
      rcases ending_neutral_key_cases g with hcase | hcase
      · exact (H _ hgmem).1 hcase
      · exact (H _ hgmem).2 hcase
    obtain ⟨doneF, hEO⟩ :=
      cycle_break_edgeOrder (sanitize_dedup g) (ending_neutral_key g) henk
    have hfbnot : (if (akeys (sanitize_cycle_break (sanitize_dedup g)
          (ending_neutral_key g)).endings).contains (ending_neutral_key g) then
            ending_neutral_key g
        else match (sanitize_cycle_break (sanitize_dedup g)
            (ending_neutral_key g)).endings with
          | [] => "END"
          | e :: _ => e.1) ∉
        akeys (sanitize_cycle_break (sanitize_dedup g) (ending_neutral_key g)).nodes := by
      intro hmem
      have hmem1 := hmem
      rw [(sanitize_cycle_break_pres _ _).2.2] at hmem1
      have hmemg := sanitize_dedup_akeys_sub g _ hmem1
      rcases ending_fallback_cases (sanitize_cycle_break (sanitize_dedup g)
          (ending_neutral_key g)) (ending_neutral_key g) with hcase | hcase
      · have hEnd : (sanitize_cycle_break (sanitize_dedup g)
              (ending_neutral_key g)).endings = g.endings :=
          ((sanitize_cycle_break_pres _ _).1).trans ((sanitize_dedup_pres g).1)
        exact (H _ hmemg).1 (by rw [← hEnd]; exact hcase)
      · exact (H _ hmemg).2 hcase
    have hEO3 := ref_repair_edgeOrder
      (sanitize_cycle_break (sanitize_dedup g) (ending_neutral_key g))
      (akeys (sanitize_cycle_break (sanitize_dedup g) (ending_neutral_key g)).nodes)
      (akeys (sanitize_cycle_break (sanitize_dedup g) (ending_neutral_key g)).endings)
      _ hfbnot doneF hEO
    have hEO4 := clear_edgeOrder _
      (akeys (sanitize_cycle_break (sanitize_dedup g) (ending_neutral_key g)).endings)
      doneF hEO3
    have hEO5 := fill_edgeOrder _
      (akeys (sanitize_cycle_break (sanitize_dedup g) (ending_neutral_key g)).endings)
      (ending_neutral_key g) doneF hEO4
    rw [hunfold]
    exact edgeOrder_acyclic _ doneF hEO5

theorem c1_witness :
    (∀ k ∈ akeys c1WitnessGraph.nodes, k ∉ akeys c1WitnessGraph.endings ∧ k ≠ "END") ∧
    ¬ Relation.TransGen (hasChoiceEdge (sanitize_template_graph c1WitnessGraph))
      ("a") ("a") :=
  ⟨by decide, c1_amended c1WitnessGraph (by decide) ("a")⟩
